import Mathlib

/-! Depth-first traversal over an adjacency-list graph

A shallow embedding of `src/depthFirstSearch.cpp` (class `Graph`) and the
properties of its constructor, `addEdge` and the traversal entry points.

Modelling conventions

* `int` values are `Int`; the four fields of the class are the four fields of
  the structure `Graph`, vectors are lists.
* `v[i]` on a vector is defined only for `0 <= i < v.size()`; an `int` index
  outside that range is an out-of-bounds access, which the C++ source leaves
  undefined.  The embedding ends there with the fault `outOfBounds`, together
  with the object state reached before that access.  `operator[]` makes no
  check, so a run of the program need not stop at that point and may go on to
  change the object; `outOfBounds` marks where the defined behaviour ends and
  says nothing about what follows.
* recursion is bounded by an explicit `depth` budget: the number of nested
  activations that may be open at once.  Running out of budget is the fault
  `depthExhausted`; theorems about results always exhibit a budget that is
  enough.
-/

namespace DepthFirstSearch

/-! ## Data model -/

/-- The class `Graph`: `elements`, `adj`, `visited`, `order`. -/
structure Graph where
  elements : Int
  adj : List (List Int)
  visited : List Bool
  order : List Int
deriving DecidableEq

/-- Ways in which a call can end without a result.  `invalidArgument` and
`outOfRange` are the error kinds named by the specification; no statement of
the source raises them.  `lengthError` is `std::length_error` thrown by
`vector::resize`, `outOfBounds` is an index outside a vector, `missingReturn`
is the end of a value-returning function reached without `return`, and
`depthExhausted` is the recursion budget of the embedding used up. -/
inductive Fault where
  | invalidArgument
  | outOfRange
  | lengthError
  | outOfBounds
  | missingReturn
  | depthExhausted
deriving DecidableEq

/-- A fault together with the object state at the moment it occurred. -/
structure Failure where
  fault : Fault
  state : Graph
deriving DecidableEq

/-- Read `v[i]` for an `int` index: defined only when `0 <= i < v.size()`. -/
def readAt {α : Type} (v : List α) (i : Int) : Option α :=
  if 0 ≤ i then v[i.toNat]? else none

/-- Write `v[i] = a` for an `int` index: defined only when `0 <= i < v.size()`. -/
def writeAt {α : Type} (v : List α) (i : Int) (a : α) : Option (List α) :=
  if 0 ≤ i ∧ i.toNat < v.length then some (v.set i.toNat a) else none

/-! ## Operations -/

/-- `Graph::Graph(int elements)`: stores the count and resizes the three
vectors.  `resize` takes a `size_t`; a negative `int` converts to a value of at
least `2^64 - 2^31`, above `max_size()` of every vector, so the first `resize`
throws `std::length_error` and no object is built.  `order.resize(elements)`
fills `order` with `elements` zeros. -/
def Graph.new (elements : Int) : Except Fault Graph :=
  if elements < 0 then .error .lengthError
  else .ok
    { elements := elements
      adj := List.replicate elements.toNat []
      visited := List.replicate elements.toNat false
      order := List.replicate elements.toNat 0 }

/-- The statement `adj[x].push_back(y);`. -/
def pushNeighbour (g : Graph) (x y : Int) : Except Failure Graph :=
  match readAt g.adj x with
  | none => .error ⟨.outOfBounds, g⟩
  | some ns => .ok { g with adj := g.adj.set x.toNat (ns ++ [y]) }

/-- `Graph::addEdge(int x, int y)`: `adj[x].push_back(y); adj[y].push_back(x);`. -/
def addEdge (g : Graph) (x y : Int) : Except Failure Graph :=
  match pushNeighbour g x y with
  | .error e => .error e
  | .ok g1 => pushNeighbour g1 y x

/-- The `for` loop of `recursivePreOrder`, over the entries `adj[x][i]` still to
be examined.  No statement of the traversal writes `adj`, so the index loop
meets exactly the entries of `adj[x]` as it stands at loop entry.  `call` is the
recursive activation `recursivePreOrder(y)`. -/
def preOrderLoop (call : Graph → Int → Except Failure Graph) :
    List Int → Graph → Except Failure Graph
  | [], g => .ok g
  | y :: rest, g =>
    match readAt g.visited y with
    | none => .error ⟨.outOfBounds, g⟩
    | some true => preOrderLoop call rest g
    | some false =>
      match call g y with
      | .error e => .error e
      | .ok g1 => preOrderLoop call rest g1

/-- `Graph::recursivePreOrder(int x)` with a budget of `depth` nested
activations: `visited[x] = true; order.push_back(x);` and then the loop.  For
`x` outside `visited` the first statement is already undefined in the source;
the result `outOfBounds` records that point only, not what a run does after
the unchecked write. -/
def recursivePreOrder : Nat → Graph → Int → Except Failure Graph
  | 0, g, _ => .error ⟨.depthExhausted, g⟩
  | d + 1, g, x =>
    match writeAt g.visited x true with
    | none => .error ⟨.outOfBounds, g⟩
    | some vis =>
      let g1 : Graph := { g with visited := vis, order := g.order ++ [x] }
      match readAt g1.adj x with
      | none => .error ⟨.outOfBounds, g1⟩
      | some ns => preOrderLoop (recursivePreOrder d) ns g1

/-- The `for` loop of `recursivePostOrder`: for an unvisited `adj[x][i]` the
source calls `recursivePostOrder(x)`, on `x` itself. -/
def postOrderLoop (call : Graph → Int → Except Failure Graph) (x : Int) :
    List Int → Graph → Except Failure Graph
  | [], g => .ok g
  | y :: rest, g =>
    match readAt g.visited y with
    | none => .error ⟨.outOfBounds, g⟩
    | some true => postOrderLoop call x rest g
    | some false =>
      match call g x with
      | .error e => .error e
      | .ok g1 => postOrderLoop call x rest g1

/-- `Graph::recursivePostOrder(int x)` with a budget of `depth` nested
activations: `visited[x] = true;`, the loop, then `order.push_back(x);`. -/
def recursivePostOrder : Nat → Graph → Int → Except Failure Graph
  | 0, g, _ => .error ⟨.depthExhausted, g⟩
  | d + 1, g, x =>
    match writeAt g.visited x true with
    | none => .error ⟨.outOfBounds, g⟩
    | some vis =>
      let g1 : Graph := { g with visited := vis }
      match readAt g1.adj x with
      | none => .error ⟨.outOfBounds, g1⟩
      | some ns =>
        match postOrderLoop (recursivePostOrder d) x ns g1 with
        | .error e => .error e
        | .ok g2 => .ok { g2 with order := g2.order ++ [x] }

/-- `Graph::iterativePreOrder(int x)`: `visited[x] = true;`, then a local stack
receives `x` and is dropped when the function returns.  For `x` outside
`visited` the first statement is already undefined in the source; the result
`outOfBounds` records that point only, not what a run does after the unchecked
write. -/
def iterativePreOrder (g : Graph) (x : Int) : Except Failure Graph :=
  match writeAt g.visited x true with
  | none => .error ⟨.outOfBounds, g⟩
  | some vis =>
    let g1 : Graph := { g with visited := vis }
    let _st : List Int := [x]
    .ok g1

/-- `Graph::hamiltonDFS(int x)`: the body is empty, so control reaches the end
of a function returning `bool` without a `return`; `x` is never examined. -/
def hamiltonDFS (g : Graph) (_x : Int) : Except Failure Bool :=
  .error ⟨.missingReturn, g⟩

/-! ## Vocabulary of the properties -/

/-- The vertex `x` is a valid index: `0 <= x < elements`. -/
def InRange (g : Graph) (x : Int) : Prop := 0 ≤ x ∧ x < g.elements

instance (g : Graph) (x : Int) : Decidable (InRange g x) := by
  unfold InRange; infer_instance

/-- A well-formed state: `adj` and `visited` have `elements` entries and every
stored neighbour is a valid index. -/
def WellFormed (g : Graph) : Prop :=
  0 ≤ g.elements ∧ g.adj.length = g.elements.toNat ∧
    g.visited.length = g.elements.toNat ∧
    ∀ ns ∈ g.adj, ∀ y ∈ ns, 0 ≤ y ∧ y < g.elements

instance (g : Graph) : Decidable (WellFormed g) := by
  unfold WellFormed; infer_instance

/-- The flag `visited[v]` is set. -/
def Visited (g : Graph) (v : Int) : Prop := readAt g.visited v = some true

instance (g : Graph) (v : Int) : Decidable (Visited g v) := by
  unfold Visited; infer_instance

/-- The entry `w` occurs in the neighbour list of `u`. -/
def Edge (adj : List (List Int)) (u w : Int) : Prop :=
  ∃ ns, readAt adj u = some ns ∧ w ∈ ns

/-- The list `p` continues `x` to a path of graph edges ending in `v`. -/
def IsPath (adj : List (List Int)) (x : Int) (p : List Int) (v : Int) : Prop :=
  List.Chain (Edge adj) x p ∧ (x :: p).getLast (List.cons_ne_nil x p) = v

/-- Every valid vertex is joined to every other by a path of graph edges. -/
def Connected (g : Graph) : Prop :=
  ∀ u v, InRange g u → InRange g v → ∃ p, IsPath g.adj u p v

/-- No flag of `visited` is set. -/
def AllUnvisited (g : Graph) : Prop := ∀ b ∈ g.visited, b = false

instance (g : Graph) : Decidable (AllUnvisited g) := by
  unfold AllUnvisited; infer_instance

/-- States reachable from `Graph(n)` by in-range `addEdge` calls. -/
inductive Built (n : Int) : Graph → Prop where
  | init (g : Graph) : Graph.new n = .ok g → Built n g
  | edge (g g1 : Graph) (x y : Int) :
      Built n g → InRange g x → InRange g y → addEdge g x y = .ok g1 → Built n g1

/-- The number of flags of `visited` still clear. -/
def unvisitedCount (g : Graph) : Nat := g.visited.count false

/-- What one activation `recursivePreOrder(x)` achieves between the state `g`
at entry and the state `g1` at return; `app` is what it appends after `x`. -/
def PreSpec (g : Graph) (x : Int) (g1 : Graph) : Prop :=
  g1.adj = g.adj ∧ g1.elements = g.elements ∧
  g1.visited.length = g.visited.length ∧
  unvisitedCount g1 ≤ unvisitedCount g ∧
  ∃ app : List Int,
    g1.order = g.order ++ x :: app ∧ (x :: app).Nodup ∧
    (∀ v ∈ app, ¬ Visited g v) ∧
    (∀ v, Visited g1 v ↔ (Visited g v ∨ v = x ∨ v ∈ app)) ∧
    (∀ v ∈ app, ∃ p, IsPath g.adj x p v ∧ ∀ w ∈ p, ¬ Visited g w) ∧
    (∀ u, (u = x ∨ u ∈ app) → ∀ w, Edge g.adj u w → Visited g1 w)

/-- What the loop over the neighbours `ys` achieves between the state `h` at
its entry and the state `h1` at its exit; `app` is what it appends. -/
def LoopSpec (h : Graph) (ys : List Int) (h1 : Graph) : Prop :=
  h1.adj = h.adj ∧ h1.elements = h.elements ∧
  h1.visited.length = h.visited.length ∧
  unvisitedCount h1 ≤ unvisitedCount h ∧
  ∃ app : List Int,
    h1.order = h.order ++ app ∧ app.Nodup ∧
    (∀ v ∈ app, ¬ Visited h v) ∧
    (∀ v, Visited h1 v ↔ (Visited h v ∨ v ∈ app)) ∧
    (∀ v ∈ app, ∃ y ∈ ys, ∃ p, IsPath h.adj y p v ∧ ∀ w ∈ y :: p, ¬ Visited h w) ∧
    (∀ u ∈ app, ∀ w, Edge h.adj u w → Visited h1 w) ∧
    (∀ y ∈ ys, Visited h1 y)

/-- The state after `Graph(4)`, `addEdge(0,1)`, `addEdge(2,3)`: two components
`{0,1}` and `{2,3}`. -/
def pairGraph : Graph :=
  { elements := 4
    adj := [[1], [0], [3], [2]]
    visited := [false, false, false, false]
    order := [0, 0, 0, 0] }

/-- The state after `Graph(2)`, `addEdge(0,1)`: one edge joining both vertices. -/
def edgeGraph : Graph :=
  { elements := 2
    adj := [[1], [0]]
    visited := [false, false]
    order := [0, 0] }

/-- The neighbour list `adj[x]`, empty when `x` is not a valid index. -/
def neighbours (g : Graph) (x : Int) : List Int := (readAt g.adj x).getD []

/-- How often `y` occurs in the neighbour list of `x`. -/
def occurrences (g : Graph) (x y : Int) : Nat := (neighbours g x).count y

/-- The state `g` after the statement `visited[x] = true;`, for a valid `x`. -/
def markVisited (g : Graph) (x : Int) : Graph :=
  { g with visited := g.visited.set x.toNat true }

/-- States reachable from `Graph(n)` by in-range `addEdge`, `recursivePreOrder`
and `iterativePreOrder` calls that return. -/
inductive Reachable (n : Int) : Graph → Prop where
  | init (g : Graph) : Graph.new n = .ok g → Reachable n g
  | edge (g g1 : Graph) (x y : Int) :
      Reachable n g → InRange g x → InRange g y → addEdge g x y = .ok g1 →
      Reachable n g1
  | pre (g g1 : Graph) (x : Int) (d : Nat) :
      Reachable n g → InRange g x → recursivePreOrder d g x = .ok g1 →
      Reachable n g1
  | iter (g g1 : Graph) (x : Int) :
      Reachable n g → InRange g x → iterativePreOrder g x = .ok g1 →
      Reachable n g1

/-- The list `p` continues `x` to a path of graph edges that meets every valid
vertex exactly once. -/
def HamiltonPath (g : Graph) (x : Int) (p : List Int) : Prop :=
  List.Chain (Edge g.adj) x p ∧ (x :: p).Nodup ∧ ∀ v, InRange g v → v ∈ x :: p

/-- The state after `Graph(3)`, `addEdge(0,1)`, `addEdge(1,2)`: the chain
`0-1-2`. -/
def chainGraph : Graph :=
  { elements := 3
    adj := [[1], [0, 2], [1]]
    visited := [false, false, false]
    order := [0, 0, 0] }

/-- The state after `Graph(1)`, `addEdge(0,0)`: one vertex with a self-loop. -/
def loopGraph : Graph :=
  { elements := 1
    adj := [[0, 0]]
    visited := [false]
    order := [0] }

/-- The state after `Graph(4)` and `addEdge` for the six pairs `(0,1)`, `(0,2)`,
`(0,3)`, `(1,2)`, `(1,3)`, `(2,3)`: the complete graph on four vertices. -/
def completeGraph : Graph :=
  { elements := 4
    adj := [[1, 2, 3], [0, 2, 3], [0, 1, 3], [0, 1, 2]]
    visited := [false, false, false, false]
    order := [0, 0, 0, 0] }

/-- The state after `Graph(4)`, `addEdge(0,1)`, `addEdge(0,2)`, `addEdge(0,3)`:
the star with centre `0`. -/
def starGraph : Graph :=
  { elements := 4
    adj := [[1, 2, 3], [0], [0], [0]]
    visited := [false, false, false, false]
    order := [0, 0, 0, 0] }

/-! ## Vector access -/

theorem readAt_eq_some_iff {α : Type} (v : List α) (i : Int) (a : α) :
    readAt v i = some a ↔ 0 ≤ i ∧ v[i.toNat]? = some a := by
  unfold readAt
  split <;> simp_all

theorem readAt_isSome_of_lt {α : Type} (v : List α) (i : Int) (h0 : 0 ≤ i)
    (h1 : i.toNat < v.length) : ∃ a, readAt v i = some a := by
  refine ⟨v[i.toNat], ?_⟩
  simp [readAt, h0, List.getElem?_eq_getElem h1]

theorem readAt_bounds {α : Type} {v : List α} {i : Int} {a : α}
    (h : readAt v i = some a) : 0 ≤ i ∧ i.toNat < v.length := by
  rw [readAt_eq_some_iff] at h
  refine ⟨h.1, ?_⟩
  by_contra hc
  rw [List.getElem?_eq_none (by omega)] at h
  simp at h

theorem readAt_mem {α : Type} {v : List α} {i : Int} {a : α}
    (h : readAt v i = some a) : a ∈ v := by
  rw [readAt_eq_some_iff] at h
  exact List.getElem?_mem h.2

theorem writeAt_eq_some_iff {α : Type} (v v1 : List α) (i : Int) (a : α) :
    writeAt v i a = some v1 ↔ (0 ≤ i ∧ i.toNat < v.length) ∧ v1 = v.set i.toNat a := by
  unfold writeAt
  split <;> simp_all [eq_comm]

theorem toNat_inj_of_nonneg {i j : Int} (hi : 0 ≤ i) (hj : 0 ≤ j)
    (h : i.toNat = j.toNat) : i = j := by
  omega

theorem readAt_set_same {α : Type} (v : List α) (i : Int) (a : α) (h0 : 0 ≤ i)
    (h1 : i.toNat < v.length) : readAt (v.set i.toNat a) i = some a := by
  simp [readAt, h0, List.getElem?_set, h1]

theorem readAt_set_ne {α : Type} (v : List α) (i j : Int) (a : α) (h0 : 0 ≤ i)
    (hne : j ≠ i) : readAt (v.set i.toNat a) j = readAt v j := by
  unfold readAt
  split
  · rename_i hj
    have : i.toNat ≠ j.toNat := fun h => hne (toNat_inj_of_nonneg hj h0 h.symm)
    simp [List.getElem?_set, this]
  · rfl

theorem count_false_set_true_le (v : List Bool) (n : Nat) :
    (v.set n true).count false ≤ v.count false := by
  induction v generalizing n with
  | nil => simp
  | cons b t ih =>
    cases n with
    | zero => cases b <;> simp [List.count_cons]
    | succ m =>
      simp only [List.set_cons_succ, List.count_cons]
      have := ih m
      omega

theorem count_false_set_true_lt (v : List Bool) (n : Nat)
    (h : v[n]? = some false) : (v.set n true).count false < v.count false := by
  induction v generalizing n with
  | nil => simp at h
  | cons b t ih =>
    cases n with
    | zero =>
      simp at h
      subst h
      simp [List.count_cons]
    | succ m =>
      simp only [List.set_cons_succ, List.count_cons]
      have := ih m (by simpa using h)
      omega

theorem count_false_set_true_lt_length (v : List Bool) (n : Nat)
    (h : n < v.length) : (v.set n true).count false < v.length := by
  induction v generalizing n with
  | nil => simp at h
  | cons b t ih =>
    cases n with
    | zero =>
      simp [List.count_cons]
      have := List.count_le_length false t
      omega
    | succ m =>
      simp only [List.set_cons_succ, List.count_cons, List.length_cons]
      have := ih m (by simpa using h)
      split <;> omega


/-! ## The pre-order traversal: what one activation achieves -/

theorem wellFormed_of_frame {g g1 : Graph} (hwf : WellFormed g)
    (hadj : g1.adj = g.adj) (hel : g1.elements = g.elements)
    (hlen : g1.visited.length = g.visited.length) : WellFormed g1 := by
  obtain ⟨h0, h1, h2, h3⟩ := hwf
  refine ⟨by rw [hel]; exact h0, by rw [hadj, hel]; exact h1,
    by rw [hlen, hel]; exact h2, ?_⟩
  rw [hadj, hel]; exact h3

theorem readAt_visited_of_inRange {g : Graph} (hwf : WellFormed g) {y : Int}
    (hy : InRange g y) : ∃ b, readAt g.visited y = some b := by
  obtain ⟨h0, _, h2, _⟩ := hwf
  obtain ⟨hy0, hy1⟩ := hy
  apply readAt_isSome_of_lt _ _ hy0
  omega

theorem readAt_adj_of_inRange {g : Graph} (hwf : WellFormed g) {y : Int}
    (hy : InRange g y) : ∃ ns, readAt g.adj y = some ns := by
  obtain ⟨h0, h1, _, _⟩ := hwf
  obtain ⟨hy0, hy1⟩ := hy
  apply readAt_isSome_of_lt _ _ hy0
  omega

theorem inRange_of_neighbour {g : Graph} (hwf : WellFormed g) {x : Int}
    {ns : List Int} (hns : readAt g.adj x = some ns) :
    ∀ y ∈ ns, InRange g y :=
  fun y hy => hwf.2.2.2 ns (readAt_mem hns) y hy

theorem not_visited_of_false {g : Graph} {y : Int}
    (h : readAt g.visited y = some false) : ¬ Visited g y := by
  intro hv
  unfold Visited at hv
  rw [h] at hv
  simp at hv

theorem visited_mark_iff (g : Graph) (x : Int) (ord : List Int) (h0 : 0 ≤ x)
    (h1 : x.toNat < g.visited.length) (v : Int) :
    Visited { g with visited := g.visited.set x.toNat true, order := ord } v ↔
      (Visited g v ∨ v = x) := by
  unfold Visited
  by_cases hv : v = x
  · subst hv
    simp [readAt_set_same _ _ _ h0 h1]
  · simp [readAt_set_ne _ _ _ _ h0 hv, hv]

theorem isPath_nil (adj : List (List Int)) (x : Int) : IsPath adj x [] x :=
  ⟨List.Chain.nil, rfl⟩

theorem isPath_cons {adj : List (List Int)} {x y v : Int} {p : List Int}
    (he : Edge adj x y) (hp : IsPath adj y p v) : IsPath adj x (y :: p) v := by
  refine ⟨List.Chain.cons he hp.1, ?_⟩
  rw [List.getLast_cons (List.cons_ne_nil y p)]
  exact hp.2



theorem preOrderLoop_spec (call : Graph → Int → Except Failure Graph)
    (hcall : ∀ h y h1, WellFormed h → InRange h y → call h y = .ok h1 →
      PreSpec h y h1) :
    ∀ (ys : List Int) (h h1 : Graph), WellFormed h → (∀ y ∈ ys, InRange h y) →
      preOrderLoop call ys h = .ok h1 → LoopSpec h ys h1 := by
  intro ys
  induction ys with
  | nil =>
    intro h h1 _ _ hrun
    simp only [preOrderLoop, Except.ok.injEq] at hrun
    subst hrun
    exact ⟨rfl, rfl, rfl, le_refl _, [], by simp, List.nodup_nil, by simp, by simp,
      by simp, by simp, by simp⟩
  | cons y rest ih =>
    intro h h1 hwf hys hrun
    have hyr : InRange h y := hys y (List.mem_cons_self _ _)
    obtain ⟨b, hb⟩ := readAt_visited_of_inRange hwf hyr
    rw [preOrderLoop, hb] at hrun
    cases b with
    | true =>
      simp only at hrun
      have hl := ih h h1 hwf (fun z hz => hys z (List.mem_cons_of_mem _ hz)) hrun
      obtain ⟨a2, e2, l2, c2, app2, o2, nd2, nv2, iff2, path2, cl2, all2⟩ := hl
      refine ⟨a2, e2, l2, c2, app2, o2, nd2, nv2, iff2, ?_, cl2, ?_⟩
      · intro v hv
        obtain ⟨z, hz, p, hp⟩ := path2 v hv
        exact ⟨z, List.mem_cons_of_mem _ hz, p, hp⟩
      · intro z hz
        rcases List.mem_cons.1 hz with rfl | hz
        · exact (iff2 z).2 (Or.inl hb)
        · exact all2 z hz
    | false =>
      simp only at hrun
      cases hc : call h y with
      | error e => rw [hc] at hrun; cases hrun
      | ok h2 =>
        rw [hc] at hrun
        simp only at hrun
        obtain ⟨a1, e1, l1, c1, app1, o1, nd1, nv1, iff1, path1, cl1⟩ :=
          hcall h y h2 hwf hyr hc
        have hwf2 := wellFormed_of_frame hwf a1 e1 l1
        have hys2 : ∀ z ∈ rest, InRange h2 z := by
          intro z hz
          have := hys z (List.mem_cons_of_mem _ hz)
          unfold InRange at *
          rw [e1]; exact this
        obtain ⟨a2, e2, l2, c2, app2, o2, nd2, nv2, iff2, path2, cl2, all2⟩ :=
          ih h2 h1 hwf2 hys2 hrun
        have hny : ¬ Visited h y := not_visited_of_false hb
        have hmono : ∀ v, Visited h v → Visited h2 v := fun v hv => (iff1 v).2 (Or.inl hv)
        refine ⟨a2.trans a1, e2.trans e1, l2.trans l1, c2.trans c1,
          (y :: app1) ++ app2, ?_, ?_, ?_, ?_, ?_, ?_, ?_⟩
        · rw [o2, o1, List.append_assoc]
        · refine List.Nodup.append nd1 nd2 ?_
          intro v hv1 hv2
          have h1v : Visited h2 v := (iff1 v).2 (Or.inr (List.mem_cons.1 hv1))
          exact nv2 v hv2 h1v
        · intro v hv
          rcases List.mem_append.1 hv with hv | hv
          · rcases List.mem_cons.1 hv with rfl | hv
            · exact hny
            · exact nv1 v hv
          · exact fun hvis => nv2 v hv (hmono v hvis)
        · intro v
          rw [iff2 v, iff1 v, List.mem_append, List.mem_cons]
          tauto
        · intro v hv
          rcases List.mem_append.1 hv with hv | hv
          · refine ⟨y, List.mem_cons_self _ _, ?_⟩
            rcases List.mem_cons.1 hv with rfl | hv
            · exact ⟨[], isPath_nil _ _, by simpa using hny⟩
            · obtain ⟨p, hp, hw⟩ := path1 v hv
              refine ⟨p, hp, ?_⟩
              intro w hw1
              rcases List.mem_cons.1 hw1 with rfl | hw1
              · exact hny
              · exact hw w hw1
          · obtain ⟨z, hz, p, hp, hw⟩ := path2 v hv
            refine ⟨z, List.mem_cons_of_mem _ hz, p, ?_, ?_⟩
            · rw [← a1]; exact hp
            · exact fun w hw1 hvis => hw w hw1 (hmono w hvis)
        · intro u hu w he
          rcases List.mem_append.1 hu with hu | hu
          · exact (iff2 w).2 (Or.inl (cl1 u (List.mem_cons.1 hu) w he))
          · exact cl2 u hu w (by rw [a1]; exact he)
        · intro z hz
          rcases List.mem_cons.1 hz with rfl | hz
          · exact (iff2 z).2 (Or.inl ((iff1 z).2 (Or.inr (Or.inl rfl))))
          · exact all2 z hz



theorem writeAt_visited_of_inRange {g : Graph} (hwf : WellFormed g) {x : Int}
    (hx : InRange g x) :
    0 ≤ x ∧ x.toNat < g.visited.length ∧
      writeAt g.visited x true = some (g.visited.set x.toNat true) := by
  obtain ⟨h0, _, h2, _⟩ := hwf
  obtain ⟨hx0, hx1⟩ := hx
  have hlt : x.toNat < g.visited.length := by omega
  exact ⟨hx0, hlt, by simp [writeAt, hx0, hlt]⟩

theorem recursivePreOrder_spec :
    ∀ (d : Nat) (g : Graph) (x : Int) (g1 : Graph), WellFormed g → InRange g x →
      recursivePreOrder d g x = .ok g1 → PreSpec g x g1 := by
  intro d
  induction d with
  | zero =>
    intro g x g1 _ _ hrun
    simp [recursivePreOrder] at hrun
  | succ d ih =>
    intro g x g1 hwf hx hrun
    obtain ⟨hx0, hlt, hw⟩ := writeAt_visited_of_inRange hwf hx
    obtain ⟨ns, hns⟩ := readAt_adj_of_inRange hwf hx
    rw [recursivePreOrder, hw] at hrun
    simp only [hns] at hrun
    have hwfm : WellFormed
        { g with visited := g.visited.set x.toNat true, order := g.order ++ [x] } :=
      wellFormed_of_frame hwf rfl rfl (by simp)
    have hnsr : ∀ y ∈ ns, InRange
        { g with visited := g.visited.set x.toNat true, order := g.order ++ [x] } y :=
      inRange_of_neighbour hwf hns
    obtain ⟨a2, e2, l2, c2, app, o2, nd2, nv2, iff2, path2, cl2, all2⟩ :=
      preOrderLoop_spec (recursivePreOrder d) ih ns _ g1 hwfm hnsr hrun
    have hmark := visited_mark_iff g x (g.order ++ [x]) hx0 hlt
    refine ⟨a2, e2, ?_, ?_, app, ?_, ?_, ?_, ?_, ?_, ?_⟩
    · rw [l2]; simp
    · refine le_trans c2 ?_
      exact count_false_set_true_le g.visited x.toNat
    · rw [o2]; simp
    · refine List.nodup_cons.2 ⟨?_, nd2⟩
      intro hxa
      exact nv2 x hxa ((hmark x).2 (Or.inr rfl))
    · exact fun v hv hvis => nv2 v hv ((hmark v).2 (Or.inl hvis))
    · intro v
      rw [iff2 v, hmark v]
      tauto
    · intro v hv
      obtain ⟨y, hy, p, hp, hw1⟩ := path2 v hv
      refine ⟨y :: p, isPath_cons ⟨ns, hns, hy⟩ hp, ?_⟩
      exact fun w hw2 hvis => hw1 w hw2 ((hmark w).2 (Or.inl hvis))
    · intro u hu w he
      rcases hu with rfl | hu
      · obtain ⟨ns1, hns1, hw1⟩ := he
        rw [hns] at hns1
        cases hns1
        exact all2 w hw1
      · exact cl2 u hu w he


/-! ## The pre-order traversal returns -/

theorem preOrderLoop_returns (call : Graph → Int → Except Failure Graph) (d : Nat)
    (hspec : ∀ h y h1, WellFormed h → InRange h y → call h y = .ok h1 →
      PreSpec h y h1)
    (hret : ∀ h y, WellFormed h → InRange h y →
      (h.visited.set y.toNat true).count false < d → ∃ h1, call h y = .ok h1) :
    ∀ (ys : List Int) (h : Graph), WellFormed h → (∀ y ∈ ys, InRange h y) →
      unvisitedCount h ≤ d → ∃ h1, preOrderLoop call ys h = .ok h1 := by
  intro ys
  induction ys with
  | nil =>
    intro h _ _ _
    exact ⟨h, rfl⟩
  | cons y rest ih =>
    intro h hwf hys hcount
    have hyr : InRange h y := hys y (List.mem_cons_self _ _)
    obtain ⟨b, hb⟩ := readAt_visited_of_inRange hwf hyr
    rw [preOrderLoop, hb]
    cases b with
    | true =>
      exact ih h hwf (fun z hz => hys z (List.mem_cons_of_mem _ hz)) hcount
    | false =>
      simp only
      have hlt : (h.visited.set y.toNat true).count false < d := by
        have := count_false_set_true_lt h.visited y.toNat
          ((readAt_eq_some_iff _ _ _).1 hb).2
        unfold unvisitedCount at hcount
        omega
      obtain ⟨h2, hc⟩ := hret h y hwf hyr hlt
      rw [hc]
      simp only
      obtain ⟨a1, e1, l1, c1, _⟩ := hspec h y h2 hwf hyr hc
      refine ih h2 (wellFormed_of_frame hwf a1 e1 l1) ?_ (le_trans c1 hcount)
      intro z hz
      have := hys z (List.mem_cons_of_mem _ hz)
      unfold InRange at *
      rw [e1]; exact this

theorem recursivePreOrder_returns :
    ∀ (d : Nat) (g : Graph) (x : Int), WellFormed g → InRange g x →
      (g.visited.set x.toNat true).count false < d →
      ∃ g1, recursivePreOrder d g x = .ok g1 := by
  intro d
  induction d with
  | zero =>
    intro g x _ _ hc
    exact absurd hc (Nat.not_lt_zero _)
  | succ d ih =>
    intro g x hwf hx hc
    obtain ⟨hx0, hlt, hw⟩ := writeAt_visited_of_inRange hwf hx
    obtain ⟨ns, hns⟩ := readAt_adj_of_inRange hwf hx
    rw [recursivePreOrder, hw]
    simp only [hns]
    exact preOrderLoop_returns (recursivePreOrder d) d (recursivePreOrder_spec d) ih ns _
      (wellFormed_of_frame hwf rfl rfl (by simp)) (inRange_of_neighbour hwf hns)
      (Nat.lt_succ_iff.1 hc)

/-- A budget of `elements` nested activations is enough for a traversal started
at a valid vertex of a well-formed state. -/
theorem recursivePreOrder_returns_of_le (d : Nat) (g : Graph) (x : Int)
    (hwf : WellFormed g) (hx : InRange g x) (hd : g.elements.toNat ≤ d) :
    ∃ g1, recursivePreOrder d g x = .ok g1 := by
  apply recursivePreOrder_returns d g x hwf hx
  obtain ⟨_, hlt, _⟩ := writeAt_visited_of_inRange hwf hx
  have := count_false_set_true_lt_length g.visited x.toNat hlt
  have := hwf.2.2.1
  omega


/-! ## Which vertices a pre-order traversal marks -/

theorem not_visited_of_allUnvisited {g : Graph} (h : AllUnvisited g) (w : Int) :
    ¬ Visited g w := by
  intro hv
  have := h true (readAt_mem hv)
  cases this

theorem visited_of_path {g g1 : Graph} {x : Int} (hs : PreSpec g x g1)
    (p : List Int) (v : Int) (hp : IsPath g.adj x p v)
    (hw : ∀ w ∈ p, w ≠ x → ¬ Visited g w) : Visited g1 v := by
  obtain ⟨_, _, _, _, app, _, _, _, hiff, _, hcl⟩ := hs
  have key : ∀ (q : List Int) (u : Int), List.Chain (Edge g.adj) u q →
      (∀ w ∈ q, w ≠ x → ¬ Visited g w) → (u = x ∨ u ∈ app) →
      Visited g1 ((u :: q).getLast (List.cons_ne_nil u q)) := by
    intro q
    induction q with
    | nil =>
      intro u _ _ hu
      exact (hiff u).2 (Or.inr hu)
    | cons w q ih =>
      intro u hch hq hu
      rw [List.getLast_cons (List.cons_ne_nil w q)]
      rw [List.chain_cons] at hch
      apply ih w hch.2 (fun z hz => hq z (List.mem_cons_of_mem _ hz))
      have hvw : Visited g1 w := hcl u hu w hch.1
      rcases (hiff w).1 hvw with h1 | h1
      · by_cases hwx : w = x
        · exact Or.inl hwx
        · exact absurd h1 (hq w (List.mem_cons_self _ _) hwx)
      · exact h1
  have := key p x hp.1 hw (Or.inl rfl)
  rw [hp.2] at this
  exact this

theorem path_of_visited {g g1 : Graph} {x : Int} (hs : PreSpec g x g1)
    (v : Int) (hv : Visited g1 v) (hnv : ¬ Visited g v) :
    ∃ p, IsPath g.adj x p v ∧ ∀ w ∈ p, ¬ Visited g w := by
  obtain ⟨_, _, _, _, app, _, _, _, hiff, hpath, _⟩ := hs
  rcases (hiff v).1 hv with h1 | rfl | h1
  · exact absurd h1 hnv
  · exact ⟨[], isPath_nil _ _, by simp⟩
  · exact hpath v h1



/-- C1: from a well-formed state and a valid `x`, `recursivePreOrder(x)` returns
(a budget of `elements` nested activations is enough) and afterwards a vertex
is marked visited exactly when it was marked before or is the end of a path of
graph edges from `x` whose vertices other than `x` were unmarked before.  From
an all-unvisited state the marked vertices are exactly those joined to `x` by a
path; in a connected graph that is every valid vertex, and in the graph with
edges `(0,1)` and `(2,3)` started at `0` it is `{0,1}`. -/
theorem recursivePreOrder_visited_iff (g : Graph) (x : Int) (d : Nat)
    (hwf : WellFormed g) (hx : InRange g x) (hd : g.elements.toNat ≤ d) :
    ∃ g1, recursivePreOrder d g x = .ok g1 ∧
      (∀ v, Visited g1 v ↔
        (Visited g v ∨ ∃ p, IsPath g.adj x p v ∧ ∀ w ∈ p, w ≠ x → ¬ Visited g w)) ∧
      (AllUnvisited g → ∀ v, Visited g1 v ↔ ∃ p, IsPath g.adj x p v) ∧
      (AllUnvisited g → Connected g → ∀ v, InRange g v → Visited g1 v) ∧
      (∃ g0 ga gb g2, Graph.new 4 = .ok g0 ∧ addEdge g0 0 1 = .ok ga ∧
        addEdge ga 2 3 = .ok gb ∧ AllUnvisited gb ∧
        recursivePreOrder 4 gb 0 = .ok g2 ∧
        g2.visited = [true, true, false, false]) := by
  obtain ⟨g1, hrun⟩ := recursivePreOrder_returns_of_le d g x hwf hx hd
  have hs := recursivePreOrder_spec d g x g1 hwf hx hrun
  have hmono : ∀ v, Visited g v → Visited g1 v := by
    obtain ⟨_, _, _, _, app, _, _, _, hiff, _, _⟩ := hs
    exact fun v hv => (hiff v).2 (Or.inl hv)
  have hgen : ∀ v, Visited g1 v ↔
      (Visited g v ∨ ∃ p, IsPath g.adj x p v ∧ ∀ w ∈ p, w ≠ x → ¬ Visited g w) := by
    intro v
    constructor
    · intro hv
      by_cases hvg : Visited g v
      · exact Or.inl hvg
      · obtain ⟨p, hp, hw⟩ := path_of_visited hs v hv hvg
        exact Or.inr ⟨p, hp, fun w hw1 _ => hw w hw1⟩
    · rintro (hv | ⟨p, hp, hw⟩)
      · exact hmono v hv
      · exact visited_of_path hs p v hp hw
  have hall : AllUnvisited g → ∀ v, Visited g1 v ↔ ∃ p, IsPath g.adj x p v := by
    intro hu v
    rw [hgen v]
    constructor
    · rintro (hv | ⟨p, hp, _⟩)
      · exact absurd hv (not_visited_of_allUnvisited hu v)
      · exact ⟨p, hp⟩
    · rintro ⟨p, hp⟩
      exact Or.inr ⟨p, hp, fun w _ _ => not_visited_of_allUnvisited hu w⟩
  refine ⟨g1, hrun, hgen, hall, ?_, ?_⟩
  · intro hu hc v hv
    exact (hall hu v).2 (hc x v hx hv)
  · exact ⟨_, _, _, _, rfl, rfl, rfl, by decide, rfl, rfl⟩

theorem recursivePreOrder_visited_iff_witness :
    WellFormed pairGraph ∧ InRange pairGraph 0 ∧ pairGraph.elements.toNat ≤ 4 ∧
    ∃ g1, recursivePreOrder 4 pairGraph 0 = .ok g1 ∧
      (∀ v, Visited g1 v ↔
        (Visited pairGraph v ∨
          ∃ p, IsPath pairGraph.adj 0 p v ∧ ∀ w ∈ p, w ≠ 0 → ¬ Visited pairGraph w)) ∧
      (AllUnvisited pairGraph → ∀ v, Visited g1 v ↔ ∃ p, IsPath pairGraph.adj 0 p v) ∧
      (AllUnvisited pairGraph → Connected pairGraph →
        ∀ v, InRange pairGraph v → Visited g1 v) ∧
      (∃ g0 ga gb g2, Graph.new 4 = .ok g0 ∧ addEdge g0 0 1 = .ok ga ∧
        addEdge ga 2 3 = .ok gb ∧ AllUnvisited gb ∧
        recursivePreOrder 4 gb 0 = .ok g2 ∧
        g2.visited = [true, true, false, false]) :=
  ⟨by decide, by decide, by decide,
    recursivePreOrder_visited_iff pairGraph 0 4 (by decide) (by decide) (by decide)⟩


/-! ## What a pre-order traversal records -/

theorem readAt_false_of_not_visited {g g1 : Graph} {v : Int}
    (hlen : g1.visited.length = g.visited.length) (hv1 : Visited g1 v)
    (hv : ¬ Visited g v) : readAt g.visited v = some false := by
  obtain ⟨h0, h1⟩ := readAt_bounds hv1
  obtain ⟨b, hb⟩ := readAt_isSome_of_lt g.visited v h0 (by omega)
  cases b with
  | false => exact hb
  | true => exact absurd hb hv

/-- C2: from a well-formed state and a valid `x`, the sequence that
`recursivePreOrder(x)` appends to `order` has no repeated entry, and its
entries are exactly `x` together with the vertices whose flag the call changed
from false to true. -/
theorem recursivePreOrder_appended_nodup (g : Graph) (x : Int) (d : Nat)
    (hwf : WellFormed g) (hx : InRange g x) (hd : g.elements.toNat ≤ d) :
    ∃ g1 app, recursivePreOrder d g x = .ok g1 ∧ g1.order = g.order ++ app ∧
      app.Nodup ∧
      ∀ v, v ∈ app ↔
        (v = x ∨ (readAt g.visited v = some false ∧ readAt g1.visited v = some true)) := by
  obtain ⟨g1, hrun⟩ := recursivePreOrder_returns_of_le d g x hwf hx hd
  obtain ⟨_, _, hlen, _, app, ho, hnd, hnv, hiff, _, _⟩ :=
    recursivePreOrder_spec d g x g1 hwf hx hrun
  refine ⟨g1, x :: app, hrun, ho, hnd, ?_⟩
  intro v
  rw [List.mem_cons]
  constructor
  · rintro (hv | hv)
    · exact Or.inl hv
    · have hv1 : Visited g1 v := (hiff v).2 (Or.inr (Or.inr hv))
      exact Or.inr ⟨readAt_false_of_not_visited hlen hv1 (hnv v hv), hv1⟩
  · rintro (hv | ⟨hf, ht⟩)
    · exact Or.inl hv
    · rcases (hiff v).1 ht with h1 | h1 | h1
      · exact absurd h1 (not_visited_of_false hf)
      · exact Or.inl h1
      · exact Or.inr h1

theorem recursivePreOrder_appended_nodup_witness :
    WellFormed pairGraph ∧ InRange pairGraph 0 ∧ pairGraph.elements.toNat ≤ 4 ∧
    ∃ g1 app, recursivePreOrder 4 pairGraph 0 = .ok g1 ∧
      g1.order = pairGraph.order ++ app ∧ app.Nodup ∧
      ∀ v, v ∈ app ↔
        (v = 0 ∨ (readAt pairGraph.visited v = some false ∧
          readAt g1.visited v = some true)) :=
  ⟨by decide, by decide, by decide,
    recursivePreOrder_appended_nodup pairGraph 0 4 (by decide) (by decide) (by decide)⟩


/-! ## Edge insertion -/

theorem readAt_set {α : Type} (v : List α) (i j : Int) (a : α) (h0 : 0 ≤ i)
    (h1 : i.toNat < v.length) :
    readAt (v.set i.toNat a) j = if j = i then some a else readAt v j := by
  by_cases hj : j = i
  · subst hj
    simp [readAt_set_same _ _ _ h0 h1]
  · simp [readAt_set_ne _ _ _ _ h0 hj, hj]

theorem neighbours_eq_of_readAt {g : Graph} {x : Int} {ns : List Int}
    (h : readAt g.adj x = some ns) : neighbours g x = ns := by
  simp [neighbours, h]

theorem readAt_adj_eq_neighbours (g : Graph) (x : Int) (hx0 : 0 ≤ x)
    (hx1 : x.toNat < g.adj.length) : readAt g.adj x = some (neighbours g x) := by
  obtain ⟨ns, hns⟩ := readAt_isSome_of_lt g.adj x hx0 hx1
  rw [neighbours_eq_of_readAt hns, hns]

theorem pushNeighbour_ok (g : Graph) (x y : Int) (hx0 : 0 ≤ x)
    (hx1 : x.toNat < g.adj.length) :
    pushNeighbour g x y =
      .ok { g with adj := g.adj.set x.toNat (neighbours g x ++ [y]) } := by
  obtain ⟨ns, hns⟩ := readAt_isSome_of_lt g.adj x hx0 hx1
  simp [pushNeighbour, neighbours, hns]

theorem addEdge_ok (g : Graph) (x y : Int) (hx0 : 0 ≤ x)
    (hx1 : x.toNat < g.adj.length) (hy0 : 0 ≤ y) (hy1 : y.toNat < g.adj.length) :
    ∃ g1, addEdge g x y = .ok g1 ∧ g1.elements = g.elements ∧
      g1.visited = g.visited ∧ g1.order = g.order ∧
      g1.adj.length = g.adj.length ∧
      ∀ z, readAt g1.adj z = (readAt g.adj z).map (fun ns =>
        ns ++ (if z = x then [y] else []) ++ (if z = y then [x] else [])) := by
  have h1 := pushNeighbour_ok g x y hx0 hx1
  have hy2 : y.toNat < (g.adj.set x.toNat (neighbours g x ++ [y])).length := by
    simpa using hy1
  have h2 := pushNeighbour_ok
    { g with adj := g.adj.set x.toNat (neighbours g x ++ [y]) } y x hy0 hy2
  rw [addEdge, h1]
  simp only
  rw [h2]
  refine ⟨_, rfl, rfl, rfl, rfl, by simp, ?_⟩
  intro z
  have hnx := readAt_adj_eq_neighbours g x hx0 hx1
  have hny := readAt_adj_eq_neighbours g y hy0 hy1
  dsimp only
  rw [readAt_set _ y z _ hy0 hy2]
  have hmid : neighbours { g with adj := g.adj.set x.toNat (neighbours g x ++ [y]) } y =
      if y = x then neighbours g x ++ [y] else neighbours g y := by
    unfold neighbours
    dsimp only
    rw [readAt_set g.adj x y _ hx0 hx1]
    split <;> rfl
  rw [hmid, readAt_set g.adj x z _ hx0 hx1]
  by_cases hyx : y = x
  · subst hyx
    by_cases hzy : z = y
    · subst hzy
      simp [hnx]
    · simp [hzy]
  · by_cases hzy : z = y
    · subst hzy
      simp [hyx, hny]
    · by_cases hzx : z = x
      · subst hzx
        simp [hzy, hnx]
      · simp [hzy, hzx]

theorem neighbours_addEdge {g g1 : Graph} {x y : Int}
    (h : ∀ z, readAt g1.adj z = (readAt g.adj z).map (fun ns =>
        ns ++ (if z = x then [y] else []) ++ (if z = y then [x] else [])))
    (hx : ∃ ns, readAt g.adj x = some ns) (hy : ∃ ns, readAt g.adj y = some ns)
    (z : Int) :
    neighbours g1 z =
      neighbours g z ++ (if z = x then [y] else []) ++ (if z = y then [x] else []) := by
  unfold neighbours
  rw [h z]
  cases hz : readAt g.adj z with
  | some ns => simp
  | none =>
    obtain ⟨nx, hnx⟩ := hx
    obtain ⟨ny, hny⟩ := hy
    have h1 : z ≠ x := fun e => by rw [e, hnx] at hz; cases hz
    have h2 : z ≠ y := fun e => by rw [e, hny] at hz; cases hz
    simp [h1, h2]

theorem inRange_bounds {g : Graph} (hlen : g.adj.length = g.elements.toNat)
    {x : Int} (hx : InRange g x) : 0 ≤ x ∧ x.toNat < g.adj.length := by
  obtain ⟨h0, h1⟩ := hx
  exact ⟨h0, by omega⟩


/-! ## States built by construction and edge insertion -/

theorem new_eq_ok {n : Int} {g : Graph} (h : Graph.new n = .ok g) :
    0 ≤ n ∧ g = Graph.mk n (List.replicate n.toNat []) (List.replicate n.toNat false)
      (List.replicate n.toNat 0) := by
  unfold Graph.new at h
  split at h
  · cases h
  · rename_i hn
    simp only [Except.ok.injEq] at h
    exact ⟨by omega, h.symm⟩

theorem neighbours_replicate (n : Int) (vis : List Bool) (ord : List Int) (z : Int) :
    neighbours (Graph.mk n (List.replicate n.toNat []) vis ord) z = [] := by
  unfold neighbours readAt
  dsimp only
  split
  · rw [List.getElem?_replicate]
    split <;> rfl
  · rfl

theorem count_ite_singleton (c : Prop) [Decidable c] (a b : Int) :
    List.count a (if c then [b] else []) = if c ∧ b = a then 1 else 0 := by
  by_cases hc : c <;> by_cases hab : b = a <;> simp [hc, hab, List.count_singleton]

theorem built_frame {n : Int} {g : Graph} (hb : Built n g) :
    0 ≤ n ∧ g.elements = n ∧ g.adj.length = n.toNat ∧
      g.visited = List.replicate n.toNat false ∧
      g.order = List.replicate n.toNat 0 := by
  induction hb with
  | init g h =>
    obtain ⟨hn, rfl⟩ := new_eq_ok h
    exact ⟨hn, rfl, by simp, rfl, rfl⟩
  | edge g g1 x y _ hx hy hrun ih =>
    obtain ⟨hn, he, hl, hv, ho⟩ := ih
    have hlen : g.adj.length = g.elements.toNat := by rw [hl, he]
    obtain ⟨hx0, hx1⟩ := inRange_bounds hlen hx
    obtain ⟨hy0, hy1⟩ := inRange_bounds hlen hy
    obtain ⟨g2, hrun2, e2, v2, o2, l2, _⟩ := addEdge_ok g x y hx0 hx1 hy0 hy1
    rw [hrun] at hrun2
    cases hrun2
    exact ⟨hn, e2.trans he, l2.trans hl, v2.trans hv, o2.trans ho⟩

theorem built_neighbours {n : Int} {g : Graph} (hb : Built n g) :
    (∀ z w, w ∈ neighbours g z → InRange g w) ∧
      ∀ u w, occurrences g u w = occurrences g w u := by
  induction hb with
  | init g h =>
    obtain ⟨hn, rfl⟩ := new_eq_ok h
    constructor
    · intro z w hw
      rw [neighbours_replicate] at hw
      cases hw
    · intro u w
      unfold occurrences
      rw [neighbours_replicate, neighbours_replicate]
      rfl
  | edge g g1 x y hg hx hy hrun ih =>
    obtain ⟨_, he, hl, _, _⟩ := built_frame hg
    have hlen : g.adj.length = g.elements.toNat := by rw [hl, he]
    obtain ⟨hx0, hx1⟩ := inRange_bounds hlen hx
    obtain ⟨hy0, hy1⟩ := inRange_bounds hlen hy
    obtain ⟨g2, hrun2, e2, _, _, _, hadj⟩ := addEdge_ok g x y hx0 hx1 hy0 hy1
    rw [hrun] at hrun2
    cases hrun2
    have hnb := neighbours_addEdge hadj (readAt_isSome_of_lt _ _ hx0 hx1)
      (readAt_isSome_of_lt _ _ hy0 hy1)
    have hr : ∀ w, InRange g w → InRange g1 w := by
      intro w hw
      unfold InRange at *
      rw [e2]; exact hw
    constructor
    · intro z w hw
      rw [hnb z] at hw
      rcases List.mem_append.1 hw with hw | hw
      · rcases List.mem_append.1 hw with hw | hw
        · exact hr w (ih.1 z w hw)
        · split at hw
          · rw [List.mem_singleton] at hw
            rw [hw]; exact hr y hy
          · cases hw
      · split at hw
        · rw [List.mem_singleton] at hw
          rw [hw]; exact hr x hx
        · cases hw
    · intro u w
      unfold occurrences
      rw [hnb u, hnb w, List.count_append, List.count_append, List.count_append,
        List.count_append]
      have := ih.2 u w
      unfold occurrences at this
      rw [this]
      rw [count_ite_singleton, count_ite_singleton, count_ite_singleton,
        count_ite_singleton]
      split_ifs <;> omega



/-- C4: in a graph with `elements` adjacency lists and for valid `x`, `y`,
`addEdge(x, y)` returns and afterwards the neighbour list of `x` contains `y`
and the neighbour list of `y` contains `x`; and in every state reachable from
`Graph(n)` by in-range `addEdge` calls, `w` occurs in the list of `u` as often
as `u` occurs in the list of `w`. -/
theorem addEdge_symmetric (g : Graph) (x y : Int)
    (hlen : g.adj.length = g.elements.toNat) (hx : InRange g x) (hy : InRange g y) :
    (∃ g1, addEdge g x y = .ok g1 ∧
      (∃ nx, readAt g1.adj x = some nx ∧ y ∈ nx) ∧
      (∃ ny, readAt g1.adj y = some ny ∧ x ∈ ny)) ∧
    (∀ n h, Built n h → ∀ u w, u ≠ w →
      (neighbours h u).count w = (neighbours h w).count u) := by
  obtain ⟨hx0, hx1⟩ := inRange_bounds hlen hx
  obtain ⟨hy0, hy1⟩ := inRange_bounds hlen hy
  obtain ⟨g1, hrun, _, _, _, _, hadj⟩ := addEdge_ok g x y hx0 hx1 hy0 hy1
  refine ⟨⟨g1, hrun, ?_, ?_⟩, ?_⟩
  · rw [hadj x, readAt_adj_eq_neighbours g x hx0 hx1]
    exact ⟨_, rfl, by simp⟩
  · rw [hadj y, readAt_adj_eq_neighbours g y hy0 hy1]
    exact ⟨_, rfl, by simp⟩
  · intro n h hb u w _
    exact (built_neighbours hb).2 u w

theorem addEdge_symmetric_witness :
    pairGraph.adj.length = pairGraph.elements.toNat ∧ InRange pairGraph 0 ∧
    InRange pairGraph 2 ∧
    (∃ g1, addEdge pairGraph 0 2 = .ok g1 ∧
      (∃ nx, readAt g1.adj 0 = some nx ∧ 2 ∈ nx) ∧
      (∃ ny, readAt g1.adj 2 = some ny ∧ 0 ∈ ny)) ∧
    (∀ n h, Built n h → ∀ u w, u ≠ w →
      (neighbours h u).count w = (neighbours h w).count u) :=
  ⟨by decide, by decide, by decide,
    addEdge_symmetric pairGraph 0 2 (by decide) (by decide) (by decide)⟩

/-- C5: in a graph with `elements` adjacency lists and for valid `x`, `y`,
`addEdge(x, y)` first replaces the list of `x` by its old contents followed by
`y` and then the list of `y` by its contents at that point followed by `x`.
For `x != y` the two lists end in `y` and `x`; for `x = y` the list ends in two
copies of `x`; a second call adds the same entries once more; every other
list, `visited`, `order` and `elements` are unchanged. -/
theorem addEdge_appends (g : Graph) (x y : Int)
    (hlen : g.adj.length = g.elements.toNat) (hx : InRange g x) (hy : InRange g y) :
    ∃ g1, addEdge g x y = .ok g1 ∧
      g1.adj = (g.adj.set x.toNat (neighbours g x ++ [y])).set y.toNat
        (neighbours { g with adj := g.adj.set x.toNat (neighbours g x ++ [y]) } y ++ [x]) ∧
      (x ≠ y → readAt g1.adj x = some (neighbours g x ++ [y]) ∧
        readAt g1.adj y = some (neighbours g y ++ [x])) ∧
      (x = y → readAt g1.adj x = some (neighbours g x ++ [x, x])) ∧
      (∀ z, z ≠ x → z ≠ y → readAt g1.adj z = readAt g.adj z) ∧
      g1.adj.length = g.adj.length ∧
      g1.visited = g.visited ∧ g1.order = g.order ∧ g1.elements = g.elements ∧
      ∃ g2, addEdge g1 x y = .ok g2 ∧
        (x ≠ y → readAt g2.adj x = some (neighbours g x ++ [y, y]) ∧
          readAt g2.adj y = some (neighbours g y ++ [x, x])) ∧
        (x = y → readAt g2.adj x = some (neighbours g x ++ [x, x, x, x])) := by
  obtain ⟨hx0, hx1⟩ := inRange_bounds hlen hx
  obtain ⟨hy0, hy1⟩ := inRange_bounds hlen hy
  obtain ⟨g1, hrun, he, hv, ho, hl, hadj⟩ := addEdge_ok g x y hx0 hx1 hy0 hy1
  obtain ⟨g2, hrun2, _, _, _, _, hadj2⟩ :=
    addEdge_ok g1 x y hx0 (by rw [hl]; exact hx1) hy0 (by rw [hl]; exact hy1)
  have hnx := readAt_adj_eq_neighbours g x hx0 hx1
  have hny := readAt_adj_eq_neighbours g y hy0 hy1
  have hshape : g1.adj = (g.adj.set x.toNat (neighbours g x ++ [y])).set y.toNat
      (neighbours { g with adj := g.adj.set x.toNat (neighbours g x ++ [y]) } y ++ [x]) := by
    have h1 := pushNeighbour_ok g x y hx0 hx1
    have h2 := pushNeighbour_ok
      { g with adj := g.adj.set x.toNat (neighbours g x ++ [y]) } y x hy0
      (by simpa using hy1)
    rw [addEdge, h1] at hrun
    simp only at hrun
    rw [h2] at hrun
    cases hrun
    rfl
  refine ⟨g1, hrun, hshape, ?_, ?_, ?_, hl, hv, ho, he, g2, hrun2, ?_, ?_⟩
  · intro hne
    have hne2 : y ≠ x := fun e => hne e.symm
    constructor
    · rw [hadj x, hnx]; simp [hne]
    · rw [hadj y, hny]; simp [hne2]
  · intro heq
    subst heq
    rw [hadj x, hnx]; simp
  · intro z hzx hzy
    rw [hadj z]
    cases readAt g.adj z <;> simp [hzx, hzy]
  · intro hne
    have hne2 : y ≠ x := fun e => hne e.symm
    constructor
    · rw [hadj2 x, hadj x, hnx]; simp [hne]
    · rw [hadj2 y, hadj y, hny]; simp [hne2]
  · intro heq
    subst heq
    rw [hadj2 x, hadj x, hnx]; simp

theorem addEdge_appends_witness :
    pairGraph.adj.length = pairGraph.elements.toNat ∧ InRange pairGraph 0 ∧
    InRange pairGraph 1 ∧
    ∃ g1, addEdge pairGraph 0 1 = .ok g1 ∧
      g1.adj = (pairGraph.adj.set (0 : Int).toNat (neighbours pairGraph 0 ++ [1])).set
        (1 : Int).toNat
        (neighbours { pairGraph with
          adj := pairGraph.adj.set (0 : Int).toNat (neighbours pairGraph 0 ++ [1]) } 1 ++ [0]) ∧
      ((0 : Int) ≠ 1 → readAt g1.adj 0 = some (neighbours pairGraph 0 ++ [1]) ∧
        readAt g1.adj 1 = some (neighbours pairGraph 1 ++ [0])) ∧
      ((0 : Int) = 1 → readAt g1.adj 0 = some (neighbours pairGraph 0 ++ [0, 0])) ∧
      (∀ z, z ≠ 0 → z ≠ 1 → readAt g1.adj z = readAt pairGraph.adj z) ∧
      g1.adj.length = pairGraph.adj.length ∧
      g1.visited = pairGraph.visited ∧ g1.order = pairGraph.order ∧
      g1.elements = pairGraph.elements ∧
      ∃ g2, addEdge g1 0 1 = .ok g2 ∧
        ((0 : Int) ≠ 1 → readAt g2.adj 0 = some (neighbours pairGraph 0 ++ [1, 1]) ∧
          readAt g2.adj 1 = some (neighbours pairGraph 1 ++ [0, 0])) ∧
        ((0 : Int) = 1 → readAt g2.adj 0 = some (neighbours pairGraph 0 ++ [0, 0, 0, 0])) :=
  ⟨by decide, by decide, by decide,
    addEdge_appends pairGraph 0 1 (by decide) (by decide) (by decide)⟩


/-! ## Indices outside the graph -/

theorem readAt_none_of_not_lt {α : Type} (v : List α) (i : Int)
    (h : ¬ (0 ≤ i ∧ i.toNat < v.length)) : readAt v i = none := by
  unfold readAt
  split
  · rename_i h0
    exact List.getElem?_eq_none (by
      have : ¬ i.toNat < v.length := fun hlt => h ⟨h0, hlt⟩
      omega)
  · rfl

theorem not_bounds_of_not_inRange {g : Graph} {len : Nat}
    (hlen : len = g.elements.toNat) {x : Int} (hx : ¬ InRange g x) :
    ¬ (0 ≤ x ∧ x.toNat < len) := by
  intro h
  apply hx
  unfold InRange
  omega

/-- C6, counterexample: in the state after `Graph(2)`, `addEdge(0,1)`, the call
`addEdge(0, 5)` does not end in an `OutOfRange` error with the adjacency lists
as before: it appends `5` to the list of `0` and then indexes `adj` out of
bounds. -/
theorem addEdge_outOfRange_counterexample :
    ¬ InRange edgeGraph 5 ∧
    addEdge edgeGraph 0 5 =
      .error ⟨.outOfBounds, { edgeGraph with adj := [[1, 5], [0]] }⟩ ∧
    ¬ ∃ s, addEdge edgeGraph 0 5 = .error ⟨.outOfRange, s⟩ ∧ s.adj = edgeGraph.adj := by
  refine ⟨by decide, rfl, ?_⟩
  rintro ⟨s, hs, _⟩
  have h : addEdge edgeGraph 0 5 =
      .error ⟨.outOfBounds, { edgeGraph with adj := [[1, 5], [0]] }⟩ := rfl
  rw [h] at hs
  cases hs

/-- C6, amended: `addEdge(x, y)` has no range check and raises no `OutOfRange`
error.  With `x` outside `[0, elements)` its first statement indexes `adj` out
of bounds in the unchanged state; with `x` inside and `y` outside, `y` is first
appended to the list of `x` and the second statement then indexes `adj` out of
bounds. -/
theorem addEdge_outside (g : Graph) (x y : Int)
    (hlen : g.adj.length = g.elements.toNat)
    (hout : ¬ InRange g x ∨ ¬ InRange g y) :
    (¬ InRange g x → addEdge g x y = .error ⟨.outOfBounds, g⟩) ∧
    (InRange g x → addEdge g x y =
      .error ⟨.outOfBounds, { g with adj := g.adj.set x.toNat (neighbours g x ++ [y]) }⟩) ∧
    ∀ s, addEdge g x y ≠ .error ⟨.outOfRange, s⟩ := by
  have h1 : ¬ InRange g x → addEdge g x y = .error ⟨.outOfBounds, g⟩ := by
    intro hx
    have := readAt_none_of_not_lt g.adj x (not_bounds_of_not_inRange hlen hx)
    simp [addEdge, pushNeighbour, this]
  have h2 : InRange g x → addEdge g x y =
      .error ⟨.outOfBounds, { g with adj := g.adj.set x.toNat (neighbours g x ++ [y]) }⟩ := by
    intro hx
    have hy : ¬ InRange g y := by
      rcases hout with h | h
      · exact absurd hx h
      · exact h
    obtain ⟨hx0, hx1⟩ := inRange_bounds hlen hx
    have hy2 : ¬ InRange { g with adj := g.adj.set x.toNat (neighbours g x ++ [y]) } y := hy
    have := readAt_none_of_not_lt (g.adj.set x.toNat (neighbours g x ++ [y])) y
      (not_bounds_of_not_inRange (by simpa using hlen) hy2)
    rw [addEdge, pushNeighbour_ok g x y hx0 hx1]
    simp [pushNeighbour, this]
  refine ⟨h1, h2, ?_⟩
  intro s hs
  by_cases hx : InRange g x
  · rw [h2 hx] at hs; cases hs
  · rw [h1 hx] at hs; cases hs

theorem addEdge_outside_witness :
    edgeGraph.adj.length = edgeGraph.elements.toNat ∧
    (¬ InRange edgeGraph 0 ∨ ¬ InRange edgeGraph 5) ∧
    (¬ InRange edgeGraph 0 → addEdge edgeGraph 0 5 = .error ⟨.outOfBounds, edgeGraph⟩) ∧
    (InRange edgeGraph 0 → addEdge edgeGraph 0 5 =
      .error ⟨.outOfBounds, { edgeGraph with
        adj := edgeGraph.adj.set (0 : Int).toNat (neighbours edgeGraph 0 ++ [5]) }⟩) ∧
    ∀ s, addEdge edgeGraph 0 5 ≠ .error ⟨.outOfRange, s⟩ :=
  ⟨by decide, by decide, addEdge_outside edgeGraph 0 5 (by decide) (by decide)⟩

/-! ## Construction -/

/-- C7: for every `n >= 0`, `Graph(n)` yields a graph with `elements = n`,
exactly `n` adjacency lists, all empty, and exactly `n` visited flags, all
false. -/
theorem new_yields_empty_graph (n : Int) (hn : 0 ≤ n) :
    ∃ g, Graph.new n = .ok g ∧ g.elements = n ∧
      g.adj.length = n.toNat ∧ (∀ ns ∈ g.adj, ns = []) ∧
      g.visited.length = n.toNat ∧ (∀ b ∈ g.visited, b = false) := by
  refine ⟨_, by rw [Graph.new, if_neg (by omega)], rfl, by simp, ?_, by simp, ?_⟩
  · intro ns hns
    exact List.eq_of_mem_replicate hns
  · intro b hb
    exact List.eq_of_mem_replicate hb

theorem new_yields_empty_graph_witness :
    (0 : Int) ≤ 3 ∧
    ∃ g, Graph.new 3 = .ok g ∧ g.elements = 3 ∧
      g.adj.length = (3 : Int).toNat ∧ (∀ ns ∈ g.adj, ns = []) ∧
      g.visited.length = (3 : Int).toNat ∧ (∀ b ∈ g.visited, b = false) :=
  ⟨by decide, new_yields_empty_graph 3 (by decide)⟩

/-- C8, counterexample: `Graph(-1)` does not fail with `InvalidArgument`; the
constructor has no argument check and the failure is the length error of
`resize`. -/
theorem new_negative_counterexample :
    Graph.new (-1) = .error .lengthError ∧
    Graph.new (-1) ≠ .error .invalidArgument := by
  refine ⟨rfl, ?_⟩
  intro h
  have h1 : Graph.new (-1) = .error .lengthError := rfl
  rw [h1] at h
  cases h

/-- C8, amended: for every `n < 0`, `Graph(n)` makes no argument check and
reports no `InvalidArgument`; the negative count reaches `resize`, which fails
with its length error, and no graph is produced. -/
theorem new_negative (n : Int) (hn : n < 0) :
    Graph.new n = .error .lengthError ∧ (∀ g, Graph.new n ≠ .ok g) ∧
      Graph.new n ≠ .error .invalidArgument := by
  have h : Graph.new n = .error .lengthError := by rw [Graph.new, if_pos hn]
  refine ⟨h, ?_, ?_⟩
  · intro g hg
    rw [h] at hg; cases hg
  · intro hg
    rw [h] at hg; cases hg

theorem new_negative_witness :
    (-2 : Int) < 0 ∧ Graph.new (-2) = .error .lengthError ∧
      (∀ g, Graph.new (-2) ≠ .ok g) ∧ Graph.new (-2) ≠ .error .invalidArgument :=
  ⟨by decide, new_negative (-2) (by decide)⟩


/-! ## Traversals started outside the graph -/

theorem wellFormed_of_built {n : Int} {g : Graph} (hb : Built n g) :
    WellFormed g ∧ AllUnvisited g := by
  obtain ⟨hn, he, hl, hv, _⟩ := built_frame hb
  refine ⟨⟨by rw [he]; exact hn, by rw [hl, he], by rw [hv, he]; simp, ?_⟩, ?_⟩
  · intro ns hns y hy
    obtain ⟨i, hi⟩ := List.mem_iff_getElem?.1 hns
    have hr : readAt g.adj (i : Int) = some ns := by
      simp [readAt, hi]
    have := (built_neighbours hb).1 (i : Int) y
      (by rw [neighbours_eq_of_readAt hr]; exact hy)
    exact this
  · intro b hb1
    rw [hv] at hb1
    exact List.eq_of_mem_replicate hb1

theorem length_of_nodup_of_mem_iff (l : List Int) (n : Nat) (hnd : l.Nodup)
    (hmem : ∀ v, v ∈ l ↔ (0 ≤ v ∧ v < n)) : l.length = n := by
  have hinj : ∀ a ∈ l, ∀ b ∈ l, a.toNat = b.toNat → a = b := by
    intro a ha b hb hab
    exact toNat_inj_of_nonneg ((hmem a).1 ha).1 ((hmem b).1 hb).1 hab
  have hnd2 : (l.map Int.toNat).Nodup := List.Nodup.map_on hinj hnd
  have hfin : (l.map Int.toNat).toFinset = Finset.range n := by
    ext k
    simp only [List.mem_toFinset, List.mem_map, Finset.mem_range]
    constructor
    · rintro ⟨a, ha, rfl⟩
      have := (hmem a).1 ha
      omega
    · intro hk
      exact ⟨(k : Int), (hmem k).2 ⟨by omega, by omega⟩, by simp⟩
  have := List.toFinset_card_of_nodup hnd2
  rw [hfin, Finset.card_range, List.length_map] at this
  exact this.symm

/-- For every connected graph built by `Graph(n)` and in-range `addEdge` calls
and every valid `start`, a single `recursivePreOrder(start)` leaves `order` with
`2 * n` entries: the `n` zeros placed by the constructor, then `start` and the
other `n - 1` vertices. -/
theorem recursivePreOrder_order_of_built (n : Int) (g : Graph) (start : Int)
    (hb : Built n g) (hc : Connected g) (hs : InRange g start) :
    ∃ g1 app, recursivePreOrder n.toNat g start = .ok g1 ∧
      g1.order = List.replicate n.toNat 0 ++ start :: app ∧
      g1.order.length = 2 * n.toNat ∧ g1.order.head? = some 0 := by
  obtain ⟨hn, he, hl, hv, ho⟩ := built_frame hb
  obtain ⟨hwf, hun⟩ := wellFormed_of_built hb
  obtain ⟨g1, hrun⟩ := recursivePreOrder_returns_of_le n.toNat g start hwf hs
    (by rw [he])
  have hspec := recursivePreOrder_spec n.toNat g start g1 hwf hs hrun
  obtain ⟨_, _, hlen, _, app, hord, hnd, hnv, hiff, _, _⟩ := hspec
  have hmem : ∀ v, v ∈ start :: app ↔ (0 ≤ v ∧ v < (n.toNat : Int)) := by
    intro v
    constructor
    · intro hv1
      have h1 : Visited g1 v := (hiff v).2 (Or.inr (List.mem_cons.1 hv1))
      obtain ⟨h0, h2⟩ := readAt_bounds h1
      rw [hlen, hv, List.length_replicate] at h2
      omega
    · intro hv1
      have hr : InRange g v := ⟨hv1.1, by rw [he]; omega⟩
      obtain ⟨p, hp⟩ := hc start v hs hr
      have h1 : Visited g1 v :=
        visited_of_path (recursivePreOrder_spec n.toNat g start g1 hwf hs hrun) p v hp
          (fun w _ _ => not_visited_of_allUnvisited hun w)
      rcases (hiff v).1 h1 with h2 | h2
      · exact absurd h2 (not_visited_of_allUnvisited hun v)
      · exact List.mem_cons.2 h2
  have hcard := length_of_nodup_of_mem_iff (start :: app) n.toNat hnd hmem
  have hpos : 0 < n.toNat := by
    obtain ⟨h0, h1⟩ := hs
    omega
  refine ⟨g1, app, hrun, by rw [hord, ho], ?_, ?_⟩
  · rw [hord, ho, List.length_append, List.length_replicate, hcard]
    omega
  · rw [hord, ho]
    obtain ⟨k, hk⟩ := Nat.exists_eq_succ_of_ne_zero (Nat.pos_iff_ne_zero.1 hpos)
    rw [hk]
    rfl

/-- From a well-formed state and a valid `x`, `iterativePreOrder(x)` returns
with the flag of `x` set and nothing else changed. -/
theorem iterativePreOrder_effect (g : Graph) (x : Int) (hwf : WellFormed g)
    (hx : InRange g x) :
    ∃ g1, iterativePreOrder g x = .ok g1 ∧ g1.elements = g.elements ∧
      g1.adj = g.adj ∧ g1.order = g.order ∧
      ∀ v, Visited g1 v ↔ (Visited g v ∨ v = x) := by
  obtain ⟨hx0, hlt, hw⟩ := writeAt_visited_of_inRange hwf hx
  refine ⟨{ g with visited := g.visited.set x.toNat true }, ?_, rfl, rfl, rfl, ?_⟩
  · rw [iterativePreOrder, hw]
  · exact visited_mark_iff g x g.order hx0 hlt

/-- From a well-formed all-unvisited state, the two pre-order traversals
started at a valid `x` mark different sets as soon as `x` has a neighbour other
than itself: the recursive one marks that neighbour, the iterative one does
not. -/
theorem iterativePreOrder_misses_neighbour (g : Graph) (x y : Int)
    (hwf : WellFormed g) (hun : AllUnvisited g) (hx : InRange g x)
    (hy : y ∈ neighbours g x) (hne : y ≠ x) :
    ∃ g1 g2, iterativePreOrder g x = .ok g1 ∧
      recursivePreOrder g.elements.toNat g x = .ok g2 ∧
      ¬ Visited g1 y ∧ Visited g2 y := by
  obtain ⟨g1, hrun1, _, _, _, hiff⟩ := iterativePreOrder_effect g x hwf hx
  obtain ⟨g2, hrun2⟩ := recursivePreOrder_returns_of_le g.elements.toNat g x hwf hx
    (le_refl _)
  have hspec := recursivePreOrder_spec _ g x g2 hwf hx hrun2
  obtain ⟨ns, hns⟩ := readAt_adj_of_inRange hwf hx
  rw [neighbours_eq_of_readAt hns] at hy
  refine ⟨g1, g2, hrun1, hrun2, ?_, ?_⟩
  · intro hv
    rcases (hiff y).1 hv with h | h
    · exact not_visited_of_allUnvisited hun y h
    · exact hne h
  · exact visited_of_path hspec [y] y (isPath_cons ⟨ns, hns, hy⟩ (isPath_nil _ _))
      (fun w _ _ => not_visited_of_allUnvisited hun w)


/-- C10, at the failing input: in the all-unvisited state after `Graph(2)`,
`addEdge(0,1)`, `iterativePreOrder(0)` marks only vertex `0`, while
`recursivePreOrder(0)` marks `0` and `1`. -/
theorem iterativePreOrder_marks_only_start :
    WellFormed edgeGraph ∧ AllUnvisited edgeGraph ∧ InRange edgeGraph 0 ∧
    iterativePreOrder edgeGraph 0 =
      .ok { edgeGraph with visited := [true, false] } ∧
    recursivePreOrder 2 edgeGraph 0 =
      .ok { edgeGraph with visited := [true, true], order := [0, 0, 0, 1] } ∧
    ¬ ∀ g1 g2, iterativePreOrder edgeGraph 0 = .ok g1 →
      recursivePreOrder 2 edgeGraph 0 = .ok g2 → ∀ v, Visited g1 v ↔ Visited g2 v := by
  refine ⟨by decide, by decide, by decide, rfl, rfl, ?_⟩
  intro h
  have := (h _ _ rfl rfl 1).2 (by decide)
  revert this
  decide

/-- C3, at the failing input: after `Graph(2)`, `addEdge(0,1)` (a connected
graph) and a single `recursivePreOrder(1)`, `order` is `[0, 0, 1, 0]`: the two
zeros placed by `order.resize(elements)` followed by the traversal, so its
length is 4 rather than 2 and its first element is `0` rather than `1`. -/
theorem recursivePreOrder_order_after_construction :
    (∃ g0, Graph.new 2 = .ok g0 ∧ addEdge g0 0 1 = .ok edgeGraph) ∧
    Connected edgeGraph ∧ InRange edgeGraph 1 ∧
    ∃ g1, recursivePreOrder 2 edgeGraph 1 = .ok g1 ∧ g1.order = [0, 0, 1, 0] ∧
      g1.order.length ≠ g1.elements.toNat ∧ g1.order.head? ≠ some 1 := by
  refine ⟨⟨_, rfl, rfl⟩, ?_, by decide, _, rfl, rfl, by decide, by decide⟩
  have e01 : Edge edgeGraph.adj 0 1 := ⟨[1], rfl, by simp⟩
  have e10 : Edge edgeGraph.adj 1 0 := ⟨[0], rfl, by simp⟩
  intro u v hu hv
  have hu1 : u = 0 ∨ u = 1 := by
    obtain ⟨h0, h1⟩ := hu
    have : edgeGraph.elements = 2 := rfl
    omega
  have hv1 : v = 0 ∨ v = 1 := by
    obtain ⟨h0, h1⟩ := hv
    have : edgeGraph.elements = 2 := rfl
    omega
  rcases hu1 with rfl | rfl <;> rcases hv1 with rfl | rfl
  · exact ⟨[], isPath_nil _ _⟩
  · exact ⟨[1], isPath_cons e01 (isPath_nil _ _)⟩
  · exact ⟨[0], isPath_cons e10 (isPath_nil _ _)⟩
  · exact ⟨[], isPath_nil _ _⟩


/-! ## The depth budget -/

theorem preOrderLoop_mono (c1 c2 : Graph → Int → Except Failure Graph)
    (hc : ∀ g y g1, c1 g y = .ok g1 → c2 g y = .ok g1) :
    ∀ (ys : List Int) (g g1 : Graph), preOrderLoop c1 ys g = .ok g1 →
      preOrderLoop c2 ys g = .ok g1 := by
  intro ys
  induction ys with
  | nil => exact fun g g1 h => h
  | cons y rest ih =>
    intro g g1 hrun
    rw [preOrderLoop] at hrun ⊢
    cases hb : readAt g.visited y with
    | none => rw [hb] at hrun; cases hrun
    | some b =>
      rw [hb] at hrun
      cases b with
      | true => exact ih g g1 hrun
      | false =>
        simp only at hrun ⊢
        cases h1 : c1 g y with
        | error e => rw [h1] at hrun; cases hrun
        | ok g2 =>
          rw [h1] at hrun
          rw [hc g y g2 h1]
          exact ih g2 g1 hrun

theorem recursivePreOrder_mono :
    ∀ (d : Nat) (g : Graph) (x : Int) (g1 : Graph),
      recursivePreOrder d g x = .ok g1 → recursivePreOrder (d + 1) g x = .ok g1 := by
  intro d
  induction d with
  | zero =>
    intro g x g1 hrun
    simp [recursivePreOrder] at hrun
  | succ d ih =>
    intro g x g1 hrun
    rw [recursivePreOrder] at hrun ⊢
    cases hw : writeAt g.visited x true with
    | none => rw [hw] at hrun; cases hrun
    | some vis =>
      rw [hw] at hrun
      simp only at hrun ⊢
      cases hns : readAt g.adj x with
      | none => rw [hns] at hrun; cases hrun
      | some ns =>
        rw [hns] at hrun
        exact preOrderLoop_mono _ _ ih ns _ g1 hrun

theorem recursivePreOrder_mono_le {d d1 : Nat} (hle : d ≤ d1) (g : Graph) (x : Int)
    (g1 : Graph) (hrun : recursivePreOrder d g x = .ok g1) :
    recursivePreOrder d1 g x = .ok g1 := by
  induction hle with
  | refl => exact hrun
  | step _ ih => exact recursivePreOrder_mono _ g x g1 ih

/-- On the chain `0-1-2` started at `0` the nesting reaches three activations:
a budget of three returns, a budget of two is used up. -/
theorem recursivePreOrder_chain_depth :
    (∃ g1, recursivePreOrder 3 chainGraph 0 = .ok g1 ∧ g1.order = [0, 0, 0, 0, 1, 2]) ∧
    ∃ s, recursivePreOrder 2 chainGraph 0 = .error ⟨.depthExhausted, s⟩ :=
  ⟨⟨_, rfl, rfl⟩, _, rfl⟩

/-! ## Order, frame and depth of the pre-order traversal -/

/-- C14: from a well-formed state and a valid `x`, `recursivePreOrder(x)` only
appends to `order`: the contents before the call are a prefix of the contents
after it, and a further traversal from any valid vertex again keeps everything
recorded so far as a prefix. -/
theorem recursivePreOrder_order_prefix (g : Graph) (x : Int) (d : Nat)
    (hwf : WellFormed g) (hx : InRange g x) (hd : g.elements.toNat ≤ d) :
    ∃ g1, recursivePreOrder d g x = .ok g1 ∧ g.order <+: g1.order ∧
      ∀ x2, InRange g x2 → ∃ g2, recursivePreOrder d g1 x2 = .ok g2 ∧
        g1.order <+: g2.order ∧ g.order <+: g2.order := by
  obtain ⟨g1, hrun⟩ := recursivePreOrder_returns_of_le d g x hwf hx hd
  obtain ⟨ha, he, hl, _, app, ho, _⟩ := recursivePreOrder_spec d g x g1 hwf hx hrun
  have hp1 : g.order <+: g1.order := ⟨x :: app, ho.symm⟩
  refine ⟨g1, hrun, hp1, ?_⟩
  intro x2 hx2
  have hwf1 := wellFormed_of_frame hwf ha he hl
  have hx21 : InRange g1 x2 := by
    unfold InRange at *
    rw [he]; exact hx2
  obtain ⟨g2, hrun2⟩ := recursivePreOrder_returns_of_le d g1 x2 hwf1 hx21
    (by rw [he]; exact hd)
  obtain ⟨_, _, _, _, app2, ho2, _⟩ := recursivePreOrder_spec d g1 x2 g2 hwf1 hx21 hrun2
  have hp2 : g1.order <+: g2.order := ⟨x2 :: app2, ho2.symm⟩
  exact ⟨g2, hrun2, hp2, List.IsPrefix.trans hp1 hp2⟩

theorem recursivePreOrder_order_prefix_witness :
    WellFormed pairGraph ∧ InRange pairGraph 0 ∧ pairGraph.elements.toNat ≤ 4 ∧
    ∃ g1, recursivePreOrder 4 pairGraph 0 = .ok g1 ∧ pairGraph.order <+: g1.order ∧
      ∀ x2, InRange pairGraph x2 → ∃ g2, recursivePreOrder 4 g1 x2 = .ok g2 ∧
        g1.order <+: g2.order ∧ pairGraph.order <+: g2.order :=
  ⟨by decide, by decide, by decide,
    recursivePreOrder_order_prefix pairGraph 0 4 (by decide) (by decide) (by decide)⟩

/-- C16: from a well-formed state with `elements >= 1` and a valid `x`,
`recursivePreOrder(x)` returns, and it does so within a budget of `elements`
nested activations: the nesting of recursive calls never goes deeper than
`elements`, and every larger budget gives the same final state. -/
theorem recursivePreOrder_depth_le_elements (g : Graph) (x : Int)
    (hwf : WellFormed g) (_ : 1 ≤ g.elements) (hx : InRange g x) :
    ∃ g1, recursivePreOrder g.elements.toNat g x = .ok g1 ∧
      ∀ d, g.elements.toNat ≤ d → recursivePreOrder d g x = .ok g1 := by
  obtain ⟨g1, hrun⟩ :=
    recursivePreOrder_returns_of_le g.elements.toNat g x hwf hx (le_refl _)
  exact ⟨g1, hrun, fun d hd => recursivePreOrder_mono_le hd g x g1 hrun⟩

theorem recursivePreOrder_depth_le_elements_witness :
    WellFormed chainGraph ∧ 1 ≤ chainGraph.elements ∧ InRange chainGraph 0 ∧
    ∃ g1, recursivePreOrder chainGraph.elements.toNat chainGraph 0 = .ok g1 ∧
      ∀ d, chainGraph.elements.toNat ≤ d → recursivePreOrder d chainGraph 0 = .ok g1 :=
  ⟨by decide, by decide, by decide,
    recursivePreOrder_depth_le_elements chainGraph 0 (by decide) (by decide) (by decide)⟩

/-- C20: from a well-formed state and a valid `x`, `recursivePreOrder(x)` and
`iterativePreOrder(x)` return with `elements` and every adjacency list as
before, and every flag of `visited` that was set is still set. -/
theorem preOrder_frame (g : Graph) (x : Int) (d : Nat)
    (hwf : WellFormed g) (hx : InRange g x) (hd : g.elements.toNat ≤ d) :
    (∃ g1, recursivePreOrder d g x = .ok g1 ∧ g1.elements = g.elements ∧
      g1.adj = g.adj ∧ ∀ v, Visited g v → Visited g1 v) ∧
    (∃ g2, iterativePreOrder g x = .ok g2 ∧ g2.elements = g.elements ∧
      g2.adj = g.adj ∧ ∀ v, Visited g v → Visited g2 v) := by
  constructor
  · obtain ⟨g1, hrun⟩ := recursivePreOrder_returns_of_le d g x hwf hx hd
    obtain ⟨ha, he, _, _, app, _, _, _, hiff, _⟩ :=
      recursivePreOrder_spec d g x g1 hwf hx hrun
    exact ⟨g1, hrun, he, ha, fun v hv => (hiff v).2 (Or.inl hv)⟩
  · obtain ⟨g2, hrun, he, ha, _, hiff⟩ := iterativePreOrder_effect g x hwf hx
    exact ⟨g2, hrun, he, ha, fun v hv => (hiff v).2 (Or.inl hv)⟩

theorem preOrder_frame_witness :
    WellFormed edgeGraph ∧ InRange edgeGraph 1 ∧ edgeGraph.elements.toNat ≤ 2 ∧
    (∃ g1, recursivePreOrder 2 edgeGraph 1 = .ok g1 ∧ g1.elements = edgeGraph.elements ∧
      g1.adj = edgeGraph.adj ∧ ∀ v, Visited edgeGraph v → Visited g1 v) ∧
    (∃ g2, iterativePreOrder edgeGraph 1 = .ok g2 ∧ g2.elements = edgeGraph.elements ∧
      g2.adj = edgeGraph.adj ∧ ∀ v, Visited edgeGraph v → Visited g2 v) :=
  ⟨by decide, by decide, by decide,
    preOrder_frame edgeGraph 1 2 (by decide) (by decide) (by decide)⟩


/-! ## A second traversal from the same vertex -/

theorem readAt_natCast {α : Type} (v : List α) (i : Nat) :
    readAt v (i : Int) = v[i]? := by
  simp [readAt]

theorem flags_eq_of_iff (l1 l2 : List Bool) (hlen : l1.length = l2.length)
    (h : ∀ v : Int, readAt l1 v = some true ↔ readAt l2 v = some true) : l1 = l2 := by
  apply List.ext_getElem hlen
  intro i h1 h2
  have hi := h (i : Int)
  rw [readAt_natCast, readAt_natCast, List.getElem?_eq_getElem h1,
    List.getElem?_eq_getElem h2] at hi
  simp only [Option.some.injEq] at hi
  cases hb1 : l1[i] <;> cases hb2 : l2[i] <;> simp_all

theorem appended_nil_of_neighbours_visited {g : Graph} {x : Int}
    (hall : ∀ w, Edge g.adj x w → Visited g w) (app : List Int)
    (hnd : (x :: app).Nodup)
    (hpath : ∀ v ∈ app, ∃ p, IsPath g.adj x p v ∧ ∀ w ∈ p, ¬ Visited g w) :
    app = [] := by
  cases app with
  | nil => rfl
  | cons v rest =>
    exfalso
    obtain ⟨p, hp, hw⟩ := hpath v (List.mem_cons_self _ _)
    cases p with
    | nil =>
      have hvx : x = v := hp.2
      have := (List.nodup_cons.1 hnd).1
      rw [hvx] at this
      exact this (List.mem_cons_self _ _)
    | cons w q =>
      have he : Edge g.adj x w := (List.chain_cons.1 hp.1).1
      exact hw w (List.mem_cons_self _ _) (hall w he)

/-- C13, counterexample: in the all-unvisited state after `Graph(2)`,
`addEdge(0,1)`, a second `recursivePreOrder(0)` is not an empty traversal: it
appends `0` to `order` once more. -/
theorem recursivePreOrder_twice_counterexample :
    WellFormed edgeGraph ∧ AllUnvisited edgeGraph ∧ InRange edgeGraph 0 ∧
    ∃ g1 g2, recursivePreOrder 2 edgeGraph 0 = .ok g1 ∧
      recursivePreOrder 2 g1 0 = .ok g2 ∧
      g1.order = [0, 0, 0, 1] ∧ g2.order = [0, 0, 0, 1, 0] ∧ g2.order ≠ g1.order :=
  ⟨by decide, by decide, by decide, _, _, rfl, rfl, rfl, rfl, by decide⟩

/-- C13, amended: from a well-formed all-unvisited state and a valid `x`, a
second `recursivePreOrder(x)` without resetting `visited` appends exactly `x`
to `order` (the start vertex is recorded unconditionally) and leaves `visited`
unchanged. -/
theorem recursivePreOrder_twice (g : Graph) (x : Int) (d : Nat)
    (hwf : WellFormed g) (_ : AllUnvisited g) (hx : InRange g x)
    (hd : g.elements.toNat ≤ d) :
    ∃ g1 g2, recursivePreOrder d g x = .ok g1 ∧ recursivePreOrder d g1 x = .ok g2 ∧
      g2.order = g1.order ++ [x] ∧ g2.visited = g1.visited := by
  obtain ⟨g1, hrun⟩ := recursivePreOrder_returns_of_le d g x hwf hx hd
  obtain ⟨ha, he, hl, _, app, _, _, _, hiff, _, hcl⟩ :=
    recursivePreOrder_spec d g x g1 hwf hx hrun
  have hwf1 := wellFormed_of_frame hwf ha he hl
  have hx1 : InRange g1 x := by
    unfold InRange at *
    rw [he]; exact hx
  obtain ⟨g2, hrun2⟩ := recursivePreOrder_returns_of_le d g1 x hwf1 hx1
    (by rw [he]; exact hd)
  obtain ⟨_, _, hl2, _, app2, ho2, hnd2, _, hiff2, hpath2, _⟩ :=
    recursivePreOrder_spec d g1 x g2 hwf1 hx1 hrun2
  have hall : ∀ w, Edge g1.adj x w → Visited g1 w := by
    intro w hw
    rw [ha] at hw
    exact hcl x (Or.inl rfl) w hw
  have hnil : app2 = [] :=
    appended_nil_of_neighbours_visited hall app2 hnd2 hpath2
  subst hnil
  refine ⟨g1, g2, hrun, hrun2, ho2, ?_⟩
  apply flags_eq_of_iff _ _ hl2
  intro v
  have := hiff2 v
  unfold Visited at this
  rw [this]
  constructor
  · rintro (h | h | h)
    · exact h
    · rw [h]
      exact (hiff x).2 (Or.inr (Or.inl rfl))
    · cases h
  · exact fun h => Or.inl h

theorem recursivePreOrder_twice_witness :
    WellFormed chainGraph ∧ AllUnvisited chainGraph ∧ InRange chainGraph 1 ∧
    chainGraph.elements.toNat ≤ 3 ∧
    ∃ g1 g2, recursivePreOrder 3 chainGraph 1 = .ok g1 ∧
      recursivePreOrder 3 g1 1 = .ok g2 ∧
      g2.order = g1.order ++ [1] ∧ g2.visited = g1.visited :=
  ⟨by decide, by decide, by decide, by decide,
    recursivePreOrder_twice chainGraph 1 3 (by decide) (by decide) (by decide)
      (by decide)⟩


/-! ## The first neighbour entered -/

theorem preOrderLoop_skip (call : Graph → Int → Except Failure Graph) (h : Graph)
    (pre rest : List Int) (hpre : ∀ z ∈ pre, readAt h.visited z = some true) :
    preOrderLoop call (pre ++ rest) h = preOrderLoop call rest h := by
  induction pre with
  | nil => rfl
  | cons z pre ih =>
    rw [List.cons_append, preOrderLoop, hpre z (List.mem_cons_self _ _)]
    exact ih (fun w hw => hpre w (List.mem_cons_of_mem _ hw))

theorem preOrderLoop_enter (call : Graph → Int → Except Failure Graph) (h h1 : Graph)
    (y : Int) (rest : List Int) (hy : readAt h.visited y = some false)
    (hrun : preOrderLoop call (y :: rest) h = .ok h1) :
    ∃ h2, call h y = .ok h2 ∧ preOrderLoop call rest h2 = .ok h1 := by
  rw [preOrderLoop, hy] at hrun
  simp only at hrun
  cases hc : call h y with
  | error e => rw [hc] at hrun; cases hrun
  | ok h2 =>
    rw [hc] at hrun
    exact ⟨h2, rfl, hrun⟩

/-- C19: from a well-formed state and a valid `x`, the sequence appended by
`recursivePreOrder(x)` starts with `x`; and when the neighbour list of `x` has
an entry `y` that is unvisited before the call and different from `x`, with
every earlier entry visited or equal to `x`, the second element appended is
`y`. -/
theorem recursivePreOrder_first_neighbour (g : Graph) (x : Int) (d : Nat)
    (hwf : WellFormed g) (hx : InRange g x) (hd : g.elements.toNat ≤ d) :
    ∃ g1 app, recursivePreOrder d g x = .ok g1 ∧ g1.order = g.order ++ x :: app ∧
      ∀ pre y post, neighbours g x = pre ++ y :: post →
        (∀ z ∈ pre, Visited g z ∨ z = x) → ¬ Visited g y → y ≠ x →
        app.head? = some y := by
  obtain ⟨g1, hrun⟩ := recursivePreOrder_returns_of_le d g x hwf hx hd
  obtain ⟨_, _, _, _, app, ho, _⟩ := recursivePreOrder_spec d g x g1 hwf hx hrun
  refine ⟨g1, app, hrun, ho, ?_⟩
  intro pre y post hnb hpre hny hyx
  obtain ⟨hx0, hlt, hw⟩ := writeAt_visited_of_inRange hwf hx
  obtain ⟨ns, hns⟩ := readAt_adj_of_inRange hwf hx
  rw [neighbours_eq_of_readAt hns] at hnb
  subst hnb
  cases d with
  | zero => simp [recursivePreOrder] at hrun
  | succ d =>
    rw [recursivePreOrder, hw] at hrun
    simp only [hns] at hrun
    have hmark := visited_mark_iff g x (g.order ++ [x]) hx0 hlt
    have hwfm : WellFormed
        { g with visited := g.visited.set x.toNat true, order := g.order ++ [x] } :=
      wellFormed_of_frame hwf rfl rfl (by simp)
    have hyr : InRange g y :=
      inRange_of_neighbour hwf hns y (by simp)
    have hpre1 : ∀ z ∈ pre, readAt
        ({ g with visited := g.visited.set x.toNat true,
                  order := g.order ++ [x] } : Graph).visited z = some true :=
      fun z hz => (hmark z).2 (hpre z hz)
    rw [preOrderLoop_skip _ _ pre (y :: post) hpre1] at hrun
    have hyf : readAt
        ({ g with visited := g.visited.set x.toNat true,
                  order := g.order ++ [x] } : Graph).visited y = some false := by
      obtain ⟨b, hb⟩ := readAt_visited_of_inRange hwfm hyr
      cases b with
      | false => exact hb
      | true =>
        rcases (hmark y).1 hb with h | h
        · exact absurd h hny
        · exact absurd h hyx
    obtain ⟨h2, hcall, hrest⟩ := preOrderLoop_enter _ _ g1 y post hyf hrun
    obtain ⟨a1, e1, l1, _, app1, o1, _⟩ :=
      recursivePreOrder_spec d _ y h2 hwfm hyr hcall
    have hwf2 := wellFormed_of_frame hwfm a1 e1 l1
    have hpost : ∀ z ∈ post, InRange h2 z := by
      intro z hz
      have := inRange_of_neighbour hwf hns z (by simp [hz])
      unfold InRange at *
      rw [e1]; exact this
    obtain ⟨_, _, _, _, app2, o2, _⟩ :=
      preOrderLoop_spec (recursivePreOrder d) (recursivePreOrder_spec d) post h2 g1
        hwf2 hpost hrest
    rw [o2, o1] at ho
    simp only [List.append_assoc, List.singleton_append, List.cons_append] at ho
    have := List.append_cancel_left ho
    simp only [List.cons.injEq, true_and] at this
    rw [← this]
    rfl

theorem recursivePreOrder_first_neighbour_witness :
    WellFormed chainGraph ∧ InRange chainGraph 1 ∧ chainGraph.elements.toNat ≤ 3 ∧
    ∃ g1 app, recursivePreOrder 3 chainGraph 1 = .ok g1 ∧
      g1.order = chainGraph.order ++ 1 :: app ∧
      ∀ pre y post, neighbours chainGraph 1 = pre ++ y :: post →
        (∀ z ∈ pre, Visited chainGraph z ∨ z = 1) → ¬ Visited chainGraph y → y ≠ 1 →
        app.head? = some y :=
  ⟨by decide, by decide, by decide,
    recursivePreOrder_first_neighbour chainGraph 1 3 (by decide) (by decide) (by decide)⟩


/-! ## Faults of the traversals on well-formed states -/

theorem preOrderLoop_fault (call : Graph → Int → Except Failure Graph)
    (hspec : ∀ h y h1, WellFormed h → InRange h y → call h y = .ok h1 →
      PreSpec h y h1)
    (hfault : ∀ h y e, WellFormed h → InRange h y → call h y = .error e →
      e.fault = .depthExhausted) :
    ∀ (ys : List Int) (h : Graph) (e : Failure), WellFormed h →
      (∀ y ∈ ys, InRange h y) → preOrderLoop call ys h = .error e →
      e.fault = .depthExhausted := by
  intro ys
  induction ys with
  | nil =>
    intro h e _ _ hrun
    cases hrun
  | cons y rest ih =>
    intro h e hwf hys hrun
    have hyr : InRange h y := hys y (List.mem_cons_self _ _)
    obtain ⟨b, hb⟩ := readAt_visited_of_inRange hwf hyr
    rw [preOrderLoop, hb] at hrun
    cases b with
    | true =>
      exact ih h e hwf (fun z hz => hys z (List.mem_cons_of_mem _ hz)) hrun
    | false =>
      simp only at hrun
      cases hc : call h y with
      | error e1 =>
        rw [hc] at hrun
        cases hrun
        exact hfault h y e hwf hyr hc
      | ok h2 =>
        rw [hc] at hrun
        obtain ⟨a1, e1, l1, _⟩ := hspec h y h2 hwf hyr hc
        refine ih h2 e (wellFormed_of_frame hwf a1 e1 l1) ?_ hrun
        intro z hz
        have := hys z (List.mem_cons_of_mem _ hz)
        unfold InRange at *
        rw [e1]; exact this

theorem recursivePreOrder_fault :
    ∀ (d : Nat) (g : Graph) (x : Int) (e : Failure), WellFormed g → InRange g x →
      recursivePreOrder d g x = .error e → e.fault = .depthExhausted := by
  intro d
  induction d with
  | zero =>
    intro g x e _ _ hrun
    simp only [recursivePreOrder, Except.error.injEq] at hrun
    rw [← hrun]
  | succ d ih =>
    intro g x e hwf hx hrun
    obtain ⟨_, _, hw⟩ := writeAt_visited_of_inRange hwf hx
    obtain ⟨ns, hns⟩ := readAt_adj_of_inRange hwf hx
    rw [recursivePreOrder, hw] at hrun
    simp only [hns] at hrun
    refine preOrderLoop_fault (recursivePreOrder d) (recursivePreOrder_spec d) ih ns _ e
      ?_ ?_ hrun
    · exact wellFormed_of_frame hwf rfl rfl (by simp)
    · exact inRange_of_neighbour hwf hns

theorem postOrderLoop_frame (call : Graph → Int → Except Failure Graph) (x : Int)
    (hcall : ∀ h h1, call h x = .ok h1 →
      h1.adj = h.adj ∧ h1.elements = h.elements ∧ h1.visited.length = h.visited.length) :
    ∀ (ys : List Int) (h h1 : Graph), postOrderLoop call x ys h = .ok h1 →
      h1.adj = h.adj ∧ h1.elements = h.elements ∧
        h1.visited.length = h.visited.length := by
  intro ys
  induction ys with
  | nil =>
    intro h h1 hrun
    simp only [postOrderLoop, Except.ok.injEq] at hrun
    subst hrun
    exact ⟨rfl, rfl, rfl⟩
  | cons y rest ih =>
    intro h h1 hrun
    rw [postOrderLoop] at hrun
    cases hb : readAt h.visited y with
    | none => rw [hb] at hrun; cases hrun
    | some b =>
      rw [hb] at hrun
      cases b with
      | true => exact ih h h1 hrun
      | false =>
        simp only at hrun
        cases hc : call h x with
        | error e => rw [hc] at hrun; cases hrun
        | ok h2 =>
          rw [hc] at hrun
          obtain ⟨a1, e1, l1⟩ := hcall h h2 hc
          obtain ⟨a2, e2, l2⟩ := ih h2 h1 hrun
          exact ⟨a2.trans a1, e2.trans e1, l2.trans l1⟩

theorem recursivePostOrder_frame :
    ∀ (d : Nat) (g : Graph) (x : Int) (g1 : Graph),
      recursivePostOrder d g x = .ok g1 →
      g1.adj = g.adj ∧ g1.elements = g.elements ∧
        g1.visited.length = g.visited.length := by
  intro d
  induction d with
  | zero =>
    intro g x g1 hrun
    simp [recursivePostOrder] at hrun
  | succ d ih =>
    intro g x g1 hrun
    rw [recursivePostOrder] at hrun
    cases hw : writeAt g.visited x true with
    | none => rw [hw] at hrun; cases hrun
    | some vis =>
      rw [hw] at hrun
      simp only at hrun
      obtain ⟨_, hvis⟩ := (writeAt_eq_some_iff _ _ _ _).1 hw
      cases hns : readAt g.adj x with
      | none => rw [hns] at hrun; cases hrun
      | some ns =>
        rw [hns] at hrun
        simp only at hrun
        cases hl : postOrderLoop (recursivePostOrder d) x ns { g with visited := vis } with
        | error e => rw [hl] at hrun; cases hrun
        | ok g2 =>
          rw [hl] at hrun
          simp only [Except.ok.injEq] at hrun
          obtain ⟨a2, e2, l2⟩ :=
            postOrderLoop_frame (recursivePostOrder d) x (fun h h1 => ih h x h1) ns _ g2 hl
          subst hrun
          refine ⟨a2, e2, ?_⟩
          rw [l2, hvis]
          simp



theorem postOrderLoop_fault (call : Graph → Int → Except Failure Graph) (x : Int)
    (hframe : ∀ h h1, call h x = .ok h1 →
      h1.adj = h.adj ∧ h1.elements = h.elements ∧ h1.visited.length = h.visited.length)
    (hfault : ∀ h e, WellFormed h → InRange h x → call h x = .error e →
      e.fault = .depthExhausted) :
    ∀ (ys : List Int) (h : Graph) (e : Failure), WellFormed h → InRange h x →
      (∀ y ∈ ys, InRange h y) → postOrderLoop call x ys h = .error e →
      e.fault = .depthExhausted := by
  intro ys
  induction ys with
  | nil =>
    intro h e _ _ _ hrun
    cases hrun
  | cons y rest ih =>
    intro h e hwf hx hys hrun
    have hyr : InRange h y := hys y (List.mem_cons_self _ _)
    obtain ⟨b, hb⟩ := readAt_visited_of_inRange hwf hyr
    rw [postOrderLoop, hb] at hrun
    cases b with
    | true =>
      exact ih h e hwf hx (fun z hz => hys z (List.mem_cons_of_mem _ hz)) hrun
    | false =>
      simp only at hrun
      cases hc : call h x with
      | error e1 =>
        rw [hc] at hrun
        cases hrun
        exact hfault h e hwf hx hc
      | ok h2 =>
        rw [hc] at hrun
        obtain ⟨a1, e1, l1⟩ := hframe h h2 hc
        have hr : ∀ z, InRange h z → InRange h2 z := by
          intro z hz
          unfold InRange at *
          rw [e1]; exact hz
        exact ih h2 e (wellFormed_of_frame hwf a1 e1 l1) (hr x hx)
          (fun z hz => hr z (hys z (List.mem_cons_of_mem _ hz))) hrun

theorem recursivePostOrder_fault :
    ∀ (d : Nat) (g : Graph) (x : Int) (e : Failure), WellFormed g → InRange g x →
      recursivePostOrder d g x = .error e → e.fault = .depthExhausted := by
  intro d
  induction d with
  | zero =>
    intro g x e _ _ hrun
    simp only [recursivePostOrder, Except.error.injEq] at hrun
    rw [← hrun]
  | succ d ih =>
    intro g x e hwf hx hrun
    obtain ⟨_, _, hw⟩ := writeAt_visited_of_inRange hwf hx
    obtain ⟨ns, hns⟩ := readAt_adj_of_inRange hwf hx
    rw [recursivePostOrder, hw] at hrun
    simp only [hns] at hrun
    cases hl : postOrderLoop (recursivePostOrder d) x ns
        { g with visited := g.visited.set x.toNat true } with
    | ok g2 => rw [hl] at hrun; cases hrun
    | error e1 =>
      rw [hl] at hrun
      simp only [Except.error.injEq] at hrun
      subst hrun
      refine postOrderLoop_fault (recursivePostOrder d) x
        (fun h h1 => recursivePostOrder_frame d h x h1) (fun h e => ih h x e) ns _ e1
        ?_ ?_ ?_ hl
      · exact wellFormed_of_frame hwf rfl rfl (by simp)
      · exact hx
      · exact inRange_of_neighbour hwf hns

/-! ## States reachable through construction, edges and pre-order traversals -/

theorem wellFormed_addEdge {g g1 : Graph} {x y : Int} (hwf : WellFormed g)
    (hx : InRange g x) (hy : InRange g y) (hrun : addEdge g x y = .ok g1) :
    WellFormed g1 ∧ g1.elements = g.elements := by
  obtain ⟨h0, h1, h2, h3⟩ := hwf
  obtain ⟨hx0, hx1⟩ := inRange_bounds h1 hx
  obtain ⟨hy0, hy1⟩ := inRange_bounds h1 hy
  obtain ⟨g2, hrun2, e2, v2, _, l2, hadj⟩ := addEdge_ok g x y hx0 hx1 hy0 hy1
  rw [hrun] at hrun2
  cases hrun2
  refine ⟨⟨by rw [e2]; exact h0, by rw [l2, e2]; exact h1, by rw [v2, e2]; exact h2, ?_⟩,
    e2⟩
  intro ns hns w hw
  rw [e2]
  obtain ⟨i, hi⟩ := List.mem_iff_getElem?.1 hns
  have hr : readAt g1.adj (i : Int) = some ns := by rw [readAt_natCast]; exact hi
  rw [hadj] at hr
  cases hold : readAt g.adj (i : Int) with
  | none => rw [hold] at hr; cases hr
  | some old =>
    rw [hold] at hr
    simp only [Option.map_some', Option.some.injEq] at hr
    rw [← hr] at hw
    rcases List.mem_append.1 hw with hw | hw
    · rcases List.mem_append.1 hw with hw | hw
      · exact h3 old (readAt_mem hold) w hw
      · split at hw
        · rw [List.mem_singleton] at hw
          rw [hw]; exact hy
        · cases hw
    · split at hw
      · rw [List.mem_singleton] at hw
        rw [hw]; exact hx
      · cases hw

theorem reachable_wellFormed {n : Int} {g : Graph} (hr : Reachable n g) :
    WellFormed g ∧ g.elements = n := by
  induction hr with
  | init g h =>
    obtain ⟨hn, rfl⟩ := new_eq_ok h
    refine ⟨⟨hn, by simp, by simp, ?_⟩, rfl⟩
    intro ns hns y hy
    rw [List.eq_of_mem_replicate hns] at hy
    cases hy
  | edge g g1 x y _ hx hy hrun ih =>
    obtain ⟨hwf1, he⟩ := wellFormed_addEdge ih.1 hx hy hrun
    exact ⟨hwf1, he.trans ih.2⟩
  | pre g g1 x d _ hx hrun ih =>
    obtain ⟨ha, he, hl, _⟩ := recursivePreOrder_spec d g x g1 ih.1 hx hrun
    exact ⟨wellFormed_of_frame ih.1 ha he hl, he.trans ih.2⟩
  | iter g g1 x _ hx hrun ih =>
    obtain ⟨_, _, hw⟩ := writeAt_visited_of_inRange ih.1 hx
    rw [iterativePreOrder, hw] at hrun
    simp only [Except.ok.injEq] at hrun
    subst hrun
    exact ⟨wellFormed_of_frame ih.1 rfl rfl (by simp), ih.2⟩

/-- C15: in every state reachable from `Graph(n)` by in-range `addEdge`,
`recursivePreOrder` and `iterativePreOrder` calls, `adj` and `visited` have
exactly `elements = n` entries and every stored neighbour lies in `[0, n)`;
hence a traversal started at a valid vertex never indexes `adj` or `visited`
out of bounds, whatever depth it reaches. -/
theorem reachable_invariant (n : Int) (g : Graph) (hr : Reachable n g) :
    0 ≤ n ∧ g.elements = n ∧ g.adj.length = n.toNat ∧ g.visited.length = n.toNat ∧
    (∀ ns ∈ g.adj, ∀ y ∈ ns, 0 ≤ y ∧ y < n) ∧
    ∀ x, InRange g x → ∀ d s,
      recursivePreOrder d g x ≠ .error ⟨.outOfBounds, s⟩ ∧
      recursivePostOrder d g x ≠ .error ⟨.outOfBounds, s⟩ ∧
      iterativePreOrder g x ≠ .error ⟨.outOfBounds, s⟩ := by
  obtain ⟨hwf, he⟩ := reachable_wellFormed hr
  obtain ⟨h0, h1, h2, h3⟩ := hwf
  rw [he] at h0 h1 h2 h3
  refine ⟨h0, he, h1, h2, h3, ?_⟩
  intro x hx d s
  have hwf := (reachable_wellFormed hr).1
  refine ⟨?_, ?_, ?_⟩
  · intro h
    have := recursivePreOrder_fault d g x _ hwf hx h
    cases this
  · intro h
    have := recursivePostOrder_fault d g x _ hwf hx h
    cases this
  · intro h
    obtain ⟨_, hrun, _⟩ := iterativePreOrder_effect g x hwf hx
    rw [hrun] at h
    cases h

theorem reachable_invariant_witness :
    Reachable 2 edgeGraph ∧
    (0 : Int) ≤ 2 ∧ edgeGraph.elements = 2 ∧ edgeGraph.adj.length = (2 : Int).toNat ∧
    edgeGraph.visited.length = (2 : Int).toNat ∧
    (∀ ns ∈ edgeGraph.adj, ∀ y ∈ ns, 0 ≤ y ∧ y < 2) ∧
    ∀ x, InRange edgeGraph x → ∀ d s,
      recursivePreOrder d edgeGraph x ≠ .error ⟨.outOfBounds, s⟩ ∧
      recursivePostOrder d edgeGraph x ≠ .error ⟨.outOfBounds, s⟩ ∧
      iterativePreOrder edgeGraph x ≠ .error ⟨.outOfBounds, s⟩ :=
  ⟨Reachable.edge _ _ 0 1 (Reachable.init _ rfl) (by decide) (by decide) rfl,
    reachable_invariant 2 edgeGraph
      (Reachable.edge _ _ 0 1 (Reachable.init _ rfl) (by decide) (by decide) rfl)⟩


/-! ## The post-order traversal as written -/

theorem postOrderLoop_error (call : Graph → Int → Except Failure Graph) (x : Int)
    (h : Graph) (e : Failure) (hcall : call h x = .error e) :
    ∀ ys : List Int, (∀ y ∈ ys, ∃ b, readAt h.visited y = some b) →
      (∃ y ∈ ys, readAt h.visited y = some false) →
      postOrderLoop call x ys h = .error e := by
  intro ys
  induction ys with
  | nil =>
    rintro _ ⟨y, hy, _⟩
    cases hy
  | cons y rest ih =>
    intro hys hex
    obtain ⟨b, hb⟩ := hys y (List.mem_cons_self _ _)
    rw [postOrderLoop, hb]
    cases b with
    | false =>
      simp only
      rw [hcall]
    | true =>
      simp only
      apply ih (fun z hz => hys z (List.mem_cons_of_mem _ hz))
      obtain ⟨z, hz, hzf⟩ := hex
      rcases List.mem_cons.1 hz with rfl | hz
      · rw [hb] at hzf
        cases hzf
      · exact ⟨z, hz, hzf⟩

theorem markVisited_idem (g : Graph) (x : Int) :
    markVisited (markVisited g x) x = markVisited g x := by
  simp [markVisited, List.set_set]

theorem wellFormed_markVisited {g : Graph} (hwf : WellFormed g) (x : Int) :
    WellFormed (markVisited g x) :=
  wellFormed_of_frame hwf rfl rfl (by simp [markVisited])

theorem readAt_markVisited_false {g : Graph} (hwf : WellFormed g) {x y : Int}
    (hx : InRange g x) (hy : InRange g y) (hny : ¬ Visited g y) (hne : y ≠ x) :
    readAt (markVisited g x).visited y = some false := by
  obtain ⟨b, hb⟩ := readAt_visited_of_inRange hwf hy
  have : readAt (markVisited g x).visited y = readAt g.visited y :=
    readAt_set_ne g.visited x y true hx.1 hne
  rw [this, hb]
  cases b with
  | false => rfl
  | true => exact absurd hb hny

theorem recursivePostOrder_step {g : Graph} (hwf : WellFormed g) {x : Int}
    (hx : InRange g x) (hex : ∃ y ∈ neighbours g x, ¬ Visited g y ∧ y ≠ x)
    (d : Nat) (e : Failure)
    (hcall : recursivePostOrder d (markVisited g x) x = .error e) :
    recursivePostOrder (d + 1) g x = .error e := by
  obtain ⟨_, _, hw⟩ := writeAt_visited_of_inRange hwf hx
  obtain ⟨ns, hns⟩ := readAt_adj_of_inRange hwf hx
  rw [neighbours_eq_of_readAt hns] at hex
  have hwfm := wellFormed_markVisited hwf x
  have hloop : postOrderLoop (recursivePostOrder d) x ns (markVisited g x) = .error e := by
    apply postOrderLoop_error _ _ _ _ hcall
    · intro y hy
      exact readAt_visited_of_inRange hwfm (inRange_of_neighbour hwf hns y hy)
    · obtain ⟨y, hy, hny, hne⟩ := hex
      exact ⟨y, hy, readAt_markVisited_false hwf hx (inRange_of_neighbour hwf hns y hy)
        hny hne⟩
  rw [recursivePostOrder, hw]
  simp only [hns]
  have hstate : ({ g with visited := g.visited.set x.toNat true } : Graph) =
      markVisited g x := rfl
  rw [hstate, hloop]

theorem recursivePostOrder_marked_exhausts {g : Graph} (hwf : WellFormed g) {x : Int}
    (hx : InRange g x) (hex : ∃ y ∈ neighbours g x, ¬ Visited g y ∧ y ≠ x) :
    ∀ d, recursivePostOrder d (markVisited g x) x =
      .error ⟨.depthExhausted, markVisited g x⟩ := by
  have hwfm := wellFormed_markVisited hwf x
  have hxm : InRange (markVisited g x) x := hx
  have hexm : ∃ y ∈ neighbours (markVisited g x) x,
      ¬ Visited (markVisited g x) y ∧ y ≠ x := by
    obtain ⟨y, hy, hny, hne⟩ := hex
    refine ⟨y, hy, ?_, hne⟩
    obtain ⟨ns, hns⟩ := readAt_adj_of_inRange hwf hx
    rw [neighbours_eq_of_readAt hns] at hy
    exact not_visited_of_false
      (readAt_markVisited_false hwf hx (inRange_of_neighbour hwf hns y hy) hny hne)
  intro d
  induction d with
  | zero => rfl
  | succ d ih =>
    apply recursivePostOrder_step hwfm hxm hexm d
    rw [markVisited_idem]
    exact ih

theorem recursivePostOrder_exhausts {g : Graph} (hwf : WellFormed g) {x : Int}
    (hx : InRange g x) (hex : ∃ y ∈ neighbours g x, ¬ Visited g y ∧ y ≠ x) (d : Nat) :
    recursivePostOrder d g x =
      .error ⟨.depthExhausted, if d = 0 then g else markVisited g x⟩ := by
  cases d with
  | zero => rfl
  | succ d =>
    rw [if_neg (Nat.succ_ne_zero d)]
    exact recursivePostOrder_step hwf hx hex d _
      (recursivePostOrder_marked_exhausts hwf hx hex d)



/-- C17: from a well-formed state and a valid `x` with a neighbour still
unvisited after `x` itself is marked, `recursivePostOrder(x)` as written never
returns: every budget of nested activations is used up.  The nested call is
again on `x`, in the state with `x` marked, and marking `x` there changes
nothing, so one more level of nesting gives the same outcome. -/
theorem recursivePostOrder_never_returns (g : Graph) (x : Int)
    (hwf : WellFormed g) (hx : InRange g x)
    (hex : ∃ y ∈ neighbours g x, ¬ Visited g y ∧ y ≠ x) :
    (∀ d g1, recursivePostOrder d g x ≠ .ok g1) ∧
    (∀ d, ∃ s, recursivePostOrder d g x = .error ⟨.depthExhausted, s⟩) ∧
    (∀ d e, recursivePostOrder d (markVisited g x) x = .error e →
      recursivePostOrder (d + 1) g x = .error e) ∧
    markVisited (markVisited g x) x = markVisited g x ∧
    (∀ d, recursivePostOrder (d + 1) (markVisited g x) x =
      recursivePostOrder d (markVisited g x) x) := by
  have hall := recursivePostOrder_exhausts hwf hx hex
  have hm := recursivePostOrder_marked_exhausts hwf hx hex
  refine ⟨?_, ?_, ?_, markVisited_idem g x, ?_⟩
  · intro d g1 h
    rw [hall d] at h
    cases h
  · exact fun d => ⟨_, hall d⟩
  · exact fun d e he => recursivePostOrder_step hwf hx hex d e he
  · intro d
    rw [hm (d + 1), hm d]

theorem recursivePostOrder_never_returns_witness :
    WellFormed chainGraph ∧ InRange chainGraph 0 ∧
    (∃ y ∈ neighbours chainGraph 0, ¬ Visited chainGraph y ∧ y ≠ 0) ∧
    (∀ d g1, recursivePostOrder d chainGraph 0 ≠ .ok g1) ∧
    (∀ d, ∃ s, recursivePostOrder d chainGraph 0 = .error ⟨.depthExhausted, s⟩) ∧
    (∀ d e, recursivePostOrder d (markVisited chainGraph 0) 0 = .error e →
      recursivePostOrder (d + 1) chainGraph 0 = .error e) ∧
    markVisited (markVisited chainGraph 0) 0 = markVisited chainGraph 0 ∧
    (∀ d, recursivePostOrder (d + 1) (markVisited chainGraph 0) 0 =
      recursivePostOrder d (markVisited chainGraph 0) 0) :=
  ⟨by decide, by decide, ⟨1, by decide, by decide, by decide⟩,
    recursivePostOrder_never_returns chainGraph 0 (by decide) (by decide)
      ⟨1, by decide, by decide, by decide⟩⟩

/-- C18, counterexample: in the state after `Graph(1)`, `addEdge(0,0)` the
neighbour list of `0` is `[0, 0]`, not empty, and `recursivePostOrder(0)`
returns with `0` appended to `order`: both entries are `0` itself, already
marked when the loop examines them. -/
theorem recursivePostOrder_appends_counterexample :
    (∃ g0, Graph.new 1 = .ok g0 ∧ addEdge g0 0 0 = .ok loopGraph) ∧
    WellFormed loopGraph ∧ InRange loopGraph 0 ∧ neighbours loopGraph 0 ≠ [] ∧
    recursivePostOrder 1 loopGraph 0 =
      .ok { loopGraph with visited := [true], order := loopGraph.order ++ [0] } :=
  ⟨⟨_, rfl, rfl⟩, by decide, by decide, by decide, rfl⟩

/-- C18, amended: from a well-formed state and a valid `x` whose neighbour list
contains a vertex still unvisited after `x` itself is marked,
`recursivePostOrder(x)` as written never appends anything to `order`: at every
depth reached the call has not returned and `order` is as before the call. -/
theorem recursivePostOrder_appends_nothing (g : Graph) (x : Int)
    (hwf : WellFormed g) (hx : InRange g x)
    (hex : ∃ y ∈ neighbours g x, ¬ Visited g y ∧ y ≠ x) (d : Nat) :
    ∃ s, recursivePostOrder d g x = .error ⟨.depthExhausted, s⟩ ∧
      s.order = g.order := by
  refine ⟨_, recursivePostOrder_exhausts hwf hx hex d, ?_⟩
  split <;> rfl

theorem recursivePostOrder_appends_nothing_witness :
    WellFormed edgeGraph ∧ InRange edgeGraph 1 ∧
    (∃ y ∈ neighbours edgeGraph 1, ¬ Visited edgeGraph y ∧ y ≠ 1) ∧
    ∃ s, recursivePostOrder 5 edgeGraph 1 = .error ⟨.depthExhausted, s⟩ ∧
      s.order = edgeGraph.order :=
  ⟨by decide, by decide, ⟨0, by decide, by decide, by decide⟩,
    recursivePostOrder_appends_nothing edgeGraph 1 (by decide) (by decide)
      ⟨0, by decide, by decide, by decide⟩ 5⟩

/-- C11, at the failing input: on the chain `0-1-2` built by `addEdge(0,1)`,
`addEdge(1,2)` and all unvisited, `recursivePostOrder(0)` does not return at
any depth and appends nothing: the loop finds `1` unvisited and calls
`recursivePostOrder(0)` again. -/
theorem recursivePostOrder_chain :
    (∃ g0 ga, Graph.new 3 = .ok g0 ∧ addEdge g0 0 1 = .ok ga ∧
      addEdge ga 1 2 = .ok chainGraph) ∧
    AllUnvisited chainGraph ∧
    (∀ d, recursivePostOrder d chainGraph 0 =
      .error ⟨.depthExhausted, if d = 0 then chainGraph else markVisited chainGraph 0⟩) ∧
    (∀ d g1, recursivePostOrder d chainGraph 0 ≠ .ok g1) ∧
    (markVisited chainGraph 0).order = chainGraph.order := by
  have hall := @recursivePostOrder_exhausts chainGraph (by decide) 0 (by decide)
    ⟨1, by decide, by decide, by decide⟩
  refine ⟨⟨_, _, rfl, rfl, rfl⟩, by decide, hall, ?_, rfl⟩
  intro d g1 h
  rw [hall d] at h
  cases h


/-! ## The Hamiltonian-path search as written -/

theorem edge_of_readAt {adj : List (List Int)} {u w : Int} {ns : List Int}
    (h : readAt adj u = some ns) (hw : w ∈ ns) : Edge adj u w :=
  ⟨ns, h, hw⟩

theorem mem_of_edge {adj : List (List Int)} {u w : Int} {ns : List Int}
    (h : readAt adj u = some ns) (he : Edge adj u w) : w ∈ ns := by
  obtain ⟨ns1, h1, hw⟩ := he
  rw [h] at h1
  cases h1
  exact hw

theorem starGraph_no_hamiltonPath : ¬ ∃ p, HamiltonPath starGraph 1 p := by
  rintro ⟨p, hch, hnd, hall⟩
  have h0 : (0 : Int) ∈ 1 :: p := hall 0 (by decide)
  have h2 : (2 : Int) ∈ 1 :: p := hall 2 (by decide)
  have h3 : (3 : Int) ∈ 1 :: p := hall 3 (by decide)
  have r0 : readAt starGraph.adj 0 = some [1, 2, 3] := rfl
  have r1 : readAt starGraph.adj 1 = some [0] := rfl
  have r2 : readAt starGraph.adj 2 = some [0] := rfl
  have r3 : readAt starGraph.adj 3 = some [0] := rfl
  cases p with
  | nil => simp at h0
  | cons a p =>
    rw [List.chain_cons] at hch
    have ha : a = 0 := by simpa using mem_of_edge r1 hch.1
    subst ha
    cases p with
    | nil => simp at h2
    | cons b p =>
      have hch2 := hch.2
      rw [List.chain_cons] at hch2
      have hb : b = 1 ∨ b = 2 ∨ b = 3 := by simpa using mem_of_edge r0 hch2.1
      cases p with
      | nil =>
        rcases hb with rfl | rfl | rfl
        · simp at h2
        · simp at h3
        · simp at h2
      | cons c p =>
        have hch3 := hch2.2
        rw [List.chain_cons] at hch3
        rcases hb with rfl | rfl | rfl
        · simp at hnd
        · have hc : c = 0 := by simpa using mem_of_edge r2 hch3.1
          subst hc
          simp at hnd
        · have hc : c = 0 := by simpa using mem_of_edge r3 hch3.1
          subst hc
          simp at hnd

/-- C12, at the failing input: the complete graph on four vertices has the path
`0, 1, 2, 3` through every vertex, and the star with centre `0` has no such
path from `1`; in both cases `hamiltonDFS` yields no value at all: its body is
empty and control runs off the end of the function. -/
theorem hamiltonDFS_returns_nothing :
    (∃ g0 g1 g2 g3 g4 g5, Graph.new 4 = .ok g0 ∧ addEdge g0 0 1 = .ok g1 ∧
      addEdge g1 0 2 = .ok g2 ∧ addEdge g2 0 3 = .ok g3 ∧ addEdge g3 1 2 = .ok g4 ∧
      addEdge g4 1 3 = .ok g5 ∧ addEdge g5 2 3 = .ok completeGraph) ∧
    WellFormed completeGraph ∧ InRange completeGraph 0 ∧
    HamiltonPath completeGraph 0 [1, 2, 3] ∧
    hamiltonDFS completeGraph 0 = .error ⟨.missingReturn, completeGraph⟩ ∧
    hamiltonDFS completeGraph 0 ≠ .ok true ∧
    (∃ g0 g1 g2, Graph.new 4 = .ok g0 ∧ addEdge g0 0 1 = .ok g1 ∧
      addEdge g1 0 2 = .ok g2 ∧ addEdge g2 0 3 = .ok starGraph) ∧
    (¬ ∃ p, HamiltonPath starGraph 1 p) ∧
    hamiltonDFS starGraph 1 = .error ⟨.missingReturn, starGraph⟩ ∧
    hamiltonDFS starGraph 1 ≠ .ok false := by
  refine ⟨⟨_, _, _, _, _, _, rfl, rfl, rfl, rfl, rfl, rfl, rfl⟩, by decide, by decide,
    ?_, rfl, ?_, ⟨_, _, _, rfl, rfl, rfl, rfl⟩, starGraph_no_hamiltonPath, rfl, ?_⟩
  · refine ⟨?_, by decide, ?_⟩
    · have r0 : readAt completeGraph.adj 0 = some [1, 2, 3] := rfl
      have r1 : readAt completeGraph.adj 1 = some [0, 2, 3] := rfl
      have r2 : readAt completeGraph.adj 2 = some [0, 1, 3] := rfl
      exact List.Chain.cons (edge_of_readAt r0 (by simp))
        (List.Chain.cons (edge_of_readAt r1 (by simp))
          (List.Chain.cons (edge_of_readAt r2 (by simp)) List.Chain.nil))
    · intro v hv
      obtain ⟨hv0, hv1⟩ := hv
      have he : completeGraph.elements = 4 := rfl
      have : v = 0 ∨ v = 1 ∨ v = 2 ∨ v = 3 := by omega
      rcases this with rfl | rfl | rfl | rfl <;> simp
  · intro h
    have h1 : hamiltonDFS completeGraph 0 = .error ⟨.missingReturn, completeGraph⟩ := rfl
    rw [h1] at h
    cases h
  · intro h
    have h1 : hamiltonDFS starGraph 1 = .error ⟨.missingReturn, starGraph⟩ := rfl
    rw [h1] at h
    cases h


end DepthFirstSearch
